import Mathlib

/-!
Shallow embedding of the Trade Classification & FIFO Ledger Engine of the
sol-wallet-analyzer repository.

Numbers in the TypeScript source are JS doubles; here they are modelled as
exact rationals (ℚ).  The single place where IEEE special values (NaN,
Infinity) are observable in the properties under study — the engine's
`calculateDataQualityScore`, whose `0/0` divisions produce NaN — is modelled
with an explicit `JsNum` type carrying NaN and the infinities.

JS `Map` objects iterate in key-insertion order; they are modelled as
association lists whose `set` keeps an existing key in place and appends a
new key at the end, exactly as JS `Map.set` behaves.

`Array.prototype.sort` with the comparator `(a, b) => a.timestamp -
b.timestamp` is a stable sort by timestamp (stable since ES2019).  The output
of any stable sort is uniquely determined (keys ascending, ties in input
order), so it is modelled by a stable insertion sort.
-/

namespace WalletAnalyzer

/-- `direction: 'buy' | 'sell'` of the `Swap` interface. -/
inductive Direction where
  | buy : Direction
  | sell : Direction
deriving DecidableEq, Repr

/-- `interface Swap` from src/types. -/
structure Swap where
  signature : String
  timestamp : ℚ
  fee : ℚ
  tokenMint : String
  tokenAmount : ℚ
  solAmount : ℚ
  direction : Direction
  platform : String
  pricePerToken : ℚ
deriving DecidableEq, Repr

/-- `interface Lot` from src/types. -/
structure Lot where
  quantity : ℚ
  costPerUnit : ℚ
  timestamp : ℚ
  signature : String
deriving DecidableEq, Repr

/-- `interface Holding` from src/types. -/
structure Holding where
  tokenMint : String
  purchaseLots : List Lot
  totalQuantity : ℚ
  averageCostPerUnit : ℚ
deriving DecidableEq, Repr

/-- `interface ClosedTrade` from src/types. -/
structure ClosedTrade where
  tokenMint : String
  totalCostBasisInSol : ℚ
  totalProceedsInSol : ℚ
  realizedPnLInSol : ℚ
  realizedPnLPercent : ℚ
  holdingDurationSeconds : ℚ
  buyTimestamp : ℚ
  sellTimestamp : ℚ
  quantity : ℚ
deriving DecidableEq, Repr

/-- The dust epsilon `0.000001` used throughout `enhancedPnLEngine.ts`. -/
def eps : ℚ := 1/1000000

/-- The oversell tolerance factor `1.001` (0.1% tolerance). -/
def oversellTolerance : ℚ := 1001/1000

/-- Sum of the lot quantities of a lot list. -/
def lotsQty (lots : List Lot) : ℚ :=
  (lots.map Lot.quantity).sum

/-- Total cost `Σ lot.quantity * lot.costPerUnit` of a lot list, the
`reduce((sum, lot) => sum + lot.quantity * lot.costPerUnit, 0)` of the source. -/
def lotsCost (lots : List Lot) : ℚ :=
  (lots.map (fun l => l.quantity * l.costPerUnit)).sum

/-- `this.holdings.get(mint)` on the insertion-ordered holdings map. -/
def getHolding (hs : List Holding) (mint : String) : Option Holding :=
  hs.find? (fun h => h.tokenMint == mint)

/-- `this.holdings.set(h.tokenMint, h)`: replace in place, or append a new key. -/
def setHolding : List Holding → Holding → List Holding
  | [], h => [h]
  | x :: xs, h => if x.tokenMint == h.tokenMint then h :: xs else x :: setHolding xs h

/-- `this.holdings.delete(mint)`. -/
def deleteHolding (hs : List Holding) (mint : String) : List Holding :=
  hs.filter (fun h => h.tokenMint != mint)

/-! ## JS numbers with IEEE special values (for the quality-score arithmetic) -/

/-- A JS double restricted to the values arising here: an exact rational,
NaN, or a signed infinity. -/
inductive JsNum where
  | num (q : ℚ) : JsNum
  | nan : JsNum
  | inf : JsNum
  | ninf : JsNum
deriving DecidableEq, Repr

/-- JS division of two (finite) numbers: `0/0 = NaN`, `x/0 = ±Infinity`. -/
def jsDivQ (a b : ℚ) : JsNum :=
  if b ≠ 0 then .num (a / b)
  else if a = 0 then .nan
  else if 0 < a then .inf
  else .ninf

/-- JS subtraction on `JsNum`. -/
def jsSub : JsNum → JsNum → JsNum
  | .num a, .num b => .num (a - b)
  | .nan, _ => .nan
  | _, .nan => .nan
  | .inf, .inf => .nan
  | .ninf, .ninf => .nan
  | .inf, _ => .inf
  | .ninf, _ => .ninf
  | .num _, .inf => .ninf
  | .num _, .ninf => .inf

/-- JS multiplication of a `JsNum` by a finite constant. -/
def jsMulC (x : JsNum) (c : ℚ) : JsNum :=
  match x with
  | .num a => .num (a * c)
  | .nan => .nan
  | .inf => if 0 < c then .inf else if c < 0 then .ninf else .nan
  | .ninf => if 0 < c then .ninf else if c < 0 then .inf else .nan

/-- JS addition of a finite constant to a `JsNum`. -/
def jsAddC (x : JsNum) (c : ℚ) : JsNum :=
  match x with
  | .num a => .num (a + c)
  | .nan => .nan
  | .inf => .inf
  | .ninf => .ninf

/-- JS `Math.min` (NaN-propagating). -/
def jsMin : JsNum → JsNum → JsNum
  | .nan, _ => .nan
  | _, .nan => .nan
  | .ninf, _ => .ninf
  | _, .ninf => .ninf
  | .inf, y => y
  | x, .inf => x
  | .num a, .num b => .num (min a b)

/-- JS `Math.max` (NaN-propagating). -/
def jsMax : JsNum → JsNum → JsNum
  | .nan, _ => .nan
  | _, .nan => .nan
  | .inf, _ => .inf
  | _, .inf => .inf
  | .ninf, y => y
  | x, .ninf => x
  | .num a, .num b => .num (max a b)

/-- JS `<` comparison (false whenever an operand is NaN). -/
def jsLt : JsNum → JsNum → Bool
  | .nan, _ => false
  | _, .nan => false
  | .num a, .num b => a < b
  | .ninf, .ninf => false
  | .ninf, _ => true
  | _, .ninf => false
  | .inf, _ => false
  | .num _, .inf => true

/-! ## The enhanced FIFO ledger engine (`enhancedPnLEngine.ts`) -/

/-- The mutable per-run state of `EnhancedPnLEngine`. -/
structure EngineState where
  holdings : List Holding
  closedTrades : List ClosedTrade
  oversellCount : ℕ
  zeroProfit : ℕ
  totalBuyVolume : ℚ
  totalSellVolume : ℚ
  buyCount : ℕ
  sellCount : ℕ
deriving DecidableEq, Repr

/-- The state after the reset at the top of `processSwapsForPnL`. -/
def initState : EngineState :=
  { holdings := [], closedTrades := [], oversellCount := 0, zeroProfit := 0
    totalBuyVolume := 0, totalSellVolume := 0, buyCount := 0, sellCount := 0 }

/-- The per-swap validity test of `validateAndFilterSwaps`: required fields
truthy (empty string and 0 are falsy in JS) and positive amounts/price.  The
extreme-value checks of the source only log warnings and filter nothing. -/
def validSwap (s : Swap) : Bool :=
  s.signature != "" && s.tokenMint != "" && decide (s.timestamp ≠ 0) &&
  decide (0 < s.tokenAmount) && decide (0 < s.solAmount) && decide (0 < s.pricePerToken)

/-- `validateAndFilterSwaps`. -/
def validateAndFilterSwaps (swaps : List Swap) : List Swap :=
  swaps.filter validSwap

/-- `handleMissingBuy`: conservative zero-profit trade for a sell with no
recorded purchase. -/
def handleMissingBuy (st : EngineState) (swap : Swap) : EngineState :=
  let closedTrade : ClosedTrade :=
    { tokenMint := swap.tokenMint
      totalCostBasisInSol := 0
      totalProceedsInSol := swap.solAmount
      realizedPnLInSol := 0
      realizedPnLPercent := 0
      holdingDurationSeconds := 0
      buyTimestamp := swap.timestamp
      sellTimestamp := swap.timestamp
      quantity := swap.tokenAmount }
  { st with closedTrades := st.closedTrades ++ [closedTrade]
            zeroProfit := st.zeroProfit + 1 }

/-- The FIFO `while` loop of `handleNormalSell`, carrying the running cost
basis, quantity sold and buy timestamp.  In the partial-consumption branch
the source reduces the front lot in place; there `consume = remaining`
(because `consume = min remaining lot.quantity < lot.quantity`), so the next
check of `remaining > 0.000001` fails and the loop exits, which is why that
branch returns directly. -/
def fifoConsume : ℚ → List Lot → ℚ → ℚ → ℚ → ℚ × ℚ × ℚ × List Lot
  | _, [], costAcc, soldAcc, buyTs => (costAcc, soldAcc, buyTs, [])
  | remaining, lot :: rest, costAcc, soldAcc, buyTs =>
    if remaining ≤ eps then (costAcc, soldAcc, buyTs, lot :: rest)
    else
      let buyTs' := if buyTs = 0 then lot.timestamp else buyTs
      let consume := min remaining lot.quantity
      let costAcc' := costAcc + consume * lot.costPerUnit
      let soldAcc' := soldAcc + consume
      if lot.quantity - eps ≤ consume then
        fifoConsume (remaining - consume) rest costAcc' soldAcc' buyTs'
      else
        (costAcc', soldAcc', buyTs', { lot with quantity := lot.quantity - consume } :: rest)

/-- `handleNormalSell`: FIFO consumption, holding update/deletion, and the
emitted `ClosedTrade`. -/
def handleNormalSell (st : EngineState) (swap : Swap) (holding : Holding) : EngineState :=
  let r := fifoConsume swap.tokenAmount holding.purchaseLots 0 0 0
  let totalCostBasis := r.1
  let totalQuantitySold := r.2.1
  let buyTimestamp := r.2.2.1
  let lots' := r.2.2.2
  let newQty := holding.totalQuantity - totalQuantitySold
  let holdings' :=
    if newQty < eps then deleteHolding st.holdings swap.tokenMint
    else
      setHolding st.holdings
        { holding with
            purchaseLots := lots'
            totalQuantity := newQty
            averageCostPerUnit := if 0 < newQty then lotsCost lots' / newQty else 0 }
  let realizedPnLInSol := swap.solAmount - totalCostBasis
  let closedTrade : ClosedTrade :=
    { tokenMint := swap.tokenMint
      totalCostBasisInSol := totalCostBasis
      totalProceedsInSol := swap.solAmount
      realizedPnLInSol := realizedPnLInSol
      realizedPnLPercent := if 0 < totalCostBasis then realizedPnLInSol / totalCostBasis * 100 else 0
      holdingDurationSeconds := swap.timestamp - buyTimestamp
      buyTimestamp := buyTimestamp
      sellTimestamp := swap.timestamp
      quantity := totalQuantitySold }
  { st with holdings := holdings'
            closedTrades := st.closedTrades ++ [closedTrade] }

/-- `handlePartialOversell`: proportional split into a matched normal sell
(when more than dust is available) and a zero-cost oversell trade. -/
def handlePartialOversell (st : EngineState) (swap : Swap) (holding : Holding) : EngineState :=
  let availableQuantity := holding.totalQuantity
  let requestedQuantity := swap.tokenAmount
  let oversellQuantity := requestedQuantity - availableQuantity
  let st₁ :=
    if eps < availableQuantity then
      let matchedPortion := availableQuantity / requestedQuantity
      let matchedProceeds := swap.solAmount * matchedPortion
      handleNormalSell st
        { swap with
            tokenAmount := availableQuantity
            solAmount := matchedProceeds
            pricePerToken := matchedProceeds / availableQuantity }
        holding
    else st
  let oversellPortion := oversellQuantity / requestedQuantity
  let oversellProceeds := swap.solAmount * oversellPortion
  let oversellTrade : ClosedTrade :=
    { tokenMint := swap.tokenMint
      totalCostBasisInSol := 0
      totalProceedsInSol := oversellProceeds
      realizedPnLInSol := 0
      realizedPnLPercent := 0
      holdingDurationSeconds := 0
      buyTimestamp := swap.timestamp
      sellTimestamp := swap.timestamp
      quantity := oversellQuantity }
  { st₁ with closedTrades := st₁.closedTrades ++ [oversellTrade]
             oversellCount := st₁.oversellCount + 1 }

/-- `processBuyEnhanced`: append a lot and recompute the weighted average. -/
def processBuyEnhanced (st : EngineState) (swap : Swap) : EngineState :=
  let lot : Lot :=
    { quantity := swap.tokenAmount
      costPerUnit := swap.pricePerToken
      timestamp := swap.timestamp
      signature := swap.signature }
  let holding :=
    (getHolding st.holdings swap.tokenMint).getD
      { tokenMint := swap.tokenMint, purchaseLots := [], totalQuantity := 0
        averageCostPerUnit := 0 }
  let lots' := holding.purchaseLots ++ [lot]
  let totalQuantity' := holding.totalQuantity + lot.quantity
  let holding' :=
    { holding with
        purchaseLots := lots'
        totalQuantity := totalQuantity'
        averageCostPerUnit := lotsCost lots' / totalQuantity' }
  { st with holdings := setHolding st.holdings holding' }

/-- `processSellEnhanced`: route to missing-buy / partial-oversell / normal. -/
def processSellEnhanced (st : EngineState) (swap : Swap) : EngineState :=
  match getHolding st.holdings swap.tokenMint with
  | none => handleMissingBuy st swap
  | some holding =>
    if holding.purchaseLots = [] then handleMissingBuy st swap
    else if holding.totalQuantity * oversellTolerance < swap.tokenAmount then
      handlePartialOversell st swap holding
    else
      handleNormalSell st swap holding

/-- `processSwapWithValidation`: dispatch on direction and update the
volume/count aggregates. -/
def processSwapWithValidation (st : EngineState) (swap : Swap) : EngineState :=
  match swap.direction with
  | .buy =>
    let st' := processBuyEnhanced st swap
    { st' with buyCount := st'.buyCount + 1
               totalBuyVolume := st'.totalBuyVolume + swap.solAmount }
  | .sell =>
    let st' := processSellEnhanced st swap
    { st' with sellCount := st'.sellCount + 1
               totalSellVolume := st'.totalSellVolume + swap.solAmount }

/-- The consistency fix-up applied by `validateAndCleanHoldings` to one
holding it keeps: re-derive `totalQuantity` from the lots when it drifted by
more than the dust epsilon, then re-derive `averageCostPerUnit` when it
drifted by more than `0.00000001`. -/
def cleanHolding (holding : Holding) : Holding :=
  let calculatedQuantity := lotsQty holding.purchaseLots
  let h₁ :=
    if eps < |calculatedQuantity - holding.totalQuantity| then
      { holding with totalQuantity := calculatedQuantity }
    else holding
  if h₁.purchaseLots ≠ [] then
    let correctAverageCost := lotsCost h₁.purchaseLots / h₁.totalQuantity
    if (1 : ℚ)/100000000 < |correctAverageCost - h₁.averageCostPerUnit| then
      { h₁ with averageCostPerUnit := correctAverageCost }
    else h₁
  else h₁

/-- `validateAndCleanHoldings`: keep holdings above dust, defensively fixing
quantity and average-cost drift. -/
def validateAndCleanHoldings (hs : List Holding) : List Holding :=
  hs.filterMap (fun holding =>
    if eps < holding.totalQuantity then some (cleanHolding holding) else none)

/-- `calculateDataQualityScore`, over `JsNum` because its ratio divisions can
be `0/0` (empty batch, zero closed trades). -/
def calculateDataQualityScore (validSwaps totalSwaps oversellCount zeroProfit
    closedTradesLen buyCount sellCount : ℕ) : JsNum :=
  let score₀ : JsNum := .num 100
  let filteredFrac := jsDivQ ((totalSwaps : ℚ) - (validSwaps : ℚ)) (totalSwaps : ℚ)
  let score₁ := jsSub score₀ (jsMulC filteredFrac 20)
  let oversellFrac := jsDivQ (oversellCount : ℚ) (closedTradesLen : ℚ)
  let score₂ := jsSub score₁ (jsMulC oversellFrac 30)
  let zeroProfitFrac := jsDivQ (zeroProfit : ℚ) (closedTradesLen : ℚ)
  let score₃ := jsSub score₂ (jsMulC zeroProfitFrac 25)
  let score₄ :=
    if 0 < buyCount ∧ 0 < sellCount then
      jsAddC score₃ ((min buyCount sellCount : ℚ) / (max buyCount sellCount : ℚ) * 10)
    else score₃
  jsMax (.num 0) (jsMin (.num 100) score₄)

/-- Stable insertion of a swap into a timestamp-sorted list: the element goes
after every strictly earlier element and before every element with an equal
or later timestamp, which is exactly where a stable sort puts it. -/
def insertByTs (x : Swap) : List Swap → List Swap
  | [] => [x]
  | y :: ys => if y.timestamp < x.timestamp then y :: insertByTs x ys else x :: y :: ys

/-- Model of `[...validSwaps].sort((a, b) => a.timestamp - b.timestamp)`:
a stable sort by ascending timestamp. -/
def sortByTimestamp : List Swap → List Swap
  | [] => []
  | x :: xs => insertByTs x (sortByTimestamp xs)

/-- The `processingSummary` record of `PnLProcessingResult`. -/
structure ProcessingSummary where
  totalSwapsProcessed : ℕ
  validSwapsProcessed : ℕ
  oversellTradesCreated : ℕ
  zeroProfit : ℕ
  avgBuyPrice : ℚ
  avgSellPrice : ℚ
  netSOL : ℚ
  dataQualityScore : JsNum
deriving DecidableEq, Repr

/-- `PnLProcessingResult`. -/
structure PnLProcessingResult where
  closedTrades : List ClosedTrade
  openHoldings : List Holding
  processingSummary : ProcessingSummary
deriving DecidableEq, Repr

/-- `processSwapsForPnL`: reset, validate, sort chronologically, process each
swap, clean holdings and build the summary. -/
def processSwapsForPnL (swaps : List Swap) : PnLProcessingResult :=
  let validSwaps := validateAndFilterSwaps swaps
  let sortedSwaps := sortByTimestamp validSwaps
  let finalSt := sortedSwaps.foldl processSwapWithValidation initState
  let openHoldings := validateAndCleanHoldings finalSt.holdings
  let dataQualityScore :=
    calculateDataQualityScore validSwaps.length swaps.length finalSt.oversellCount
      finalSt.zeroProfit finalSt.closedTrades.length finalSt.buyCount finalSt.sellCount
  { closedTrades := finalSt.closedTrades
    openHoldings := openHoldings
    processingSummary :=
      { totalSwapsProcessed := swaps.length
        validSwapsProcessed := validSwaps.length
        oversellTradesCreated := finalSt.oversellCount
        zeroProfit := finalSt.zeroProfit
        avgBuyPrice := if 0 < finalSt.buyCount then finalSt.totalBuyVolume / (finalSt.buyCount : ℚ) else 0
        avgSellPrice := if 0 < finalSt.sellCount then finalSt.totalSellVolume / (finalSt.sellCount : ℚ) else 0
        netSOL := finalSt.totalSellVolume - finalSt.totalBuyVolume
        dataQualityScore := dataQualityScore } }

/-! ## Claim-level aggregates and side-condition predicates -/

/-- The Bool analogue of the branch structure of `fifoConsume`, asserting that
no lot is removed by the `quantityFromThisLot >= lot.quantity - 0.000001`
tolerance while only partially consumed — the one place FIFO consumption can
discard cost. -/
def consumeExactB : ℚ → List Lot → Bool
  | _, [] => true
  | remaining, lot :: rest =>
    if remaining ≤ eps then true
    else
      let consume := min remaining lot.quantity
      if lot.quantity - eps ≤ consume then
        decide (consume = lot.quantity) && consumeExactB (remaining - consume) rest
      else true

/-- Side condition on one processing step for the asset `mint`: the swap is
not an oversell of `mint` (it takes the missing-buy or fully-matched path),
its FIFO consumption is dust-exact, and the holding is deleted only once its
lot list is empty. -/
def sellStepOK (mint : String) (st : EngineState) (swap : Swap) : Bool :=
  if swap.tokenMint == mint && decide (swap.direction = Direction.sell) then
    match getHolding st.holdings mint with
    | none => true
    | some h =>
      if h.purchaseLots = [] then true
      else if h.totalQuantity * oversellTolerance < swap.tokenAmount then false
      else
        let r := fifoConsume swap.tokenAmount h.purchaseLots 0 0 0
        consumeExactB swap.tokenAmount h.purchaseLots &&
          (decide (eps ≤ h.totalQuantity - r.2.1) || decide (r.2.2.2 = ([] : List Lot)))
  else true

/-- `sellStepOK` holding along a whole processing run. -/
def runOK (mint : String) : EngineState → List Swap → Bool
  | _, [] => true
  | st, s :: rest => sellStepOK mint st s && runOK mint (processSwapWithValidation st s) rest

/-- Cost basis of the engine's recorded holding for `mint`. -/
def mintHoldingCost (hs : List Holding) (mint : String) : ℚ :=
  match getHolding hs mint with
  | some h => lotsCost h.purchaseLots
  | none => 0

/-- Sum of the cost bases of the closed trades of `mint`. -/
def closedCostOf (trades : List ClosedTrade) (mint : String) : ℚ :=
  ((trades.filter (fun t => t.tokenMint == mint)).map ClosedTrade.totalCostBasisInSol).sum

/-- Sum of the costs (`tokenAmount * pricePerToken`) of the buy swaps of `mint`. -/
def buysCostOf (swaps : List Swap) (mint : String) : ℚ :=
  ((swaps.filter (fun s => s.tokenMint == mint && decide (s.direction = Direction.buy))).map
    (fun s => s.tokenAmount * s.pricePerToken)).sum

/-- Sum of the cost bases of the holdings of `mint` in a holdings list. -/
def holdingsCostOf (hs : List Holding) (mint : String) : ℚ :=
  ((hs.filter (fun h => h.tokenMint == mint)).map (fun h => lotsCost h.purchaseLots)).sum

/-! ## The swap classifier (`SwapProcessorService`, `analyzeTradeDirection`)

The spec's classifier (§4.2): dominant asset by largest absolute net delta,
base amount as the largest single observed base-asset transfer.  This is the
`analyzeTradeDirection` of the `swapProcessor` iteration whose base-amount
rule the spec §4.2 step 6 adopts as canonical. -/

/-- A `tokenTransfers` entry (the fields the classifier reads).
`tokenAmount` is the already-parsed numeric amount. -/
structure TokenTransfer where
  mint : String
  fromUserAccount : String
  toUserAccount : String
  tokenAmount : ℚ
deriving DecidableEq, Repr

/-- A `nativeTransfers` entry; `amount` is in lamports. -/
structure NativeTransfer where
  fromUserAccount : String
  toUserAccount : String
  amount : ℚ
deriving DecidableEq, Repr

/-- The fields of `ParsedTransaction` read by the classifier and the
data-quality service. -/
structure ParsedTransaction where
  signature : String
  blockTime : ℚ
  fee : ℚ
  tokenTransfers : List TokenTransfer
  nativeTransfers : List NativeTransfer
deriving DecidableEq, Repr

/-- The wrapped-SOL mint singled out by `isSolOrWsol`. -/
def wsolMint : String := "So11111111111111111111111111111111111111112"

/-- `isSolOrWsol`. -/
def isSolOrWsol (mint : String) : Bool := mint == wsolMint

/-- `normalizeTokenAmount`: `Math.abs(parseFloat(t.tokenAmount))`. -/
def normalizeTokenAmount (t : TokenTransfer) : ℚ := |t.tokenAmount|

/-- `tokenChanges.get(mint) || 0` on the insertion-ordered map. -/
def getChange (m : List (String × ℚ)) (k : String) : ℚ :=
  (((m.find? (fun p => p.1 == k))).map Prod.snd).getD 0

/-- `tokenChanges.set(mint, v)`. -/
def setChange : List (String × ℚ) → String → ℚ → List (String × ℚ)
  | [], k, v => [(k, v)]
  | p :: ps, k, v => if p.1 == k then (k, v) :: ps else p :: setChange ps k v

/-- One `tokenTransfers.forEach` iteration building the net-change map.  In
the source the later `if (t.fromUserAccount === walletAddress)` assignment
overwrites the earlier one, so a self-transfer counts as `-amount`. -/
def tokenChangeStep (wallet : String) (m : List (String × ℚ)) (t : TokenTransfer) :
    List (String × ℚ) :=
  if isSolOrWsol t.mint then m
  else
    let amount := normalizeTokenAmount t
    let currentChange := getChange m t.mint
    let netChange : ℚ :=
      if t.fromUserAccount == wallet then -amount
      else if t.toUserAccount == wallet then amount
      else 0
    setChange m t.mint (currentChange + netChange)

/-- The per-mint net change map of a transaction, in first-encounter order. -/
def tokenChanges (tx : ParsedTransaction) (wallet : String) : List (String × ℚ) :=
  tx.tokenTransfers.foldl (tokenChangeStep wallet) []

/-- `nonZeroChanges`: drop mints with no net change (routing hops). -/
def nonZeroChanges (tx : ParsedTransaction) (wallet : String) : List (String × ℚ) :=
  (tokenChanges tx wallet).filter (fun p => decide (p.2 ≠ 0))

/-- The `reduce((a, b) => Math.abs(a[1]) > Math.abs(b[1]) ? a : b)` pick of
the dominant entry (`none` on an empty map). -/
def dominantChange : List (String × ℚ) → Option (String × ℚ)
  | [] => none
  | e :: rest => some (rest.foldl (fun a b => if |b.2| < |a.2| then a else b) e)

/-- One `forEach` iteration of the running-maximum pattern
`if (qualifies && amount > largest) largest = amount`. -/
def maxUpd {α : Type} (cond : α → Bool) (val : α → ℚ) (acc : ℚ) (t : α) : ℚ :=
  if cond t then (if acc < val t then val t else acc) else acc

/-- The largest base-asset amount the wallet sent: a running maximum over the
native transfers (lamports / 1e9) and the wrapped-SOL token transfers. -/
def largestOutgoingSol (tx : ParsedTransaction) (wallet : String) : ℚ :=
  tx.tokenTransfers.foldl
    (maxUpd (fun t => isSolOrWsol t.mint && t.fromUserAccount == wallet) normalizeTokenAmount)
    (tx.nativeTransfers.foldl
      (maxUpd (fun t => t.fromUserAccount == wallet) (fun t => t.amount / 1000000000)) 0)

/-- The largest base-asset amount the wallet received (mirror image). -/
def largestIncomingSol (tx : ParsedTransaction) (wallet : String) : ℚ :=
  tx.tokenTransfers.foldl
    (maxUpd (fun t => isSolOrWsol t.mint && t.toUserAccount == wallet) normalizeTokenAmount)
    (tx.nativeTransfers.foldl
      (maxUpd (fun t => t.toUserAccount == wallet) (fun t => t.amount / 1000000000)) 0)

/-- The record returned by `analyzeTradeDirection`. -/
structure TradeInfo where
  direction : Direction
  tokenMint : String
  tokenAmount : ℚ
  solAmount : ℚ
deriving DecidableEq, Repr

/-- `analyzeTradeDirection` of the canonical classifier iteration. -/
def analyzeTradeDirection (tx : ParsedTransaction) (wallet : String) : Option TradeInfo :=
  match dominantChange (nonZeroChanges tx wallet) with
  | none => none
  | some mainEntry =>
    let direction := if 0 < mainEntry.2 then Direction.buy else Direction.sell
    let tokenAmount := |mainEntry.2|
    let solAmount :=
      if direction = Direction.buy then largestOutgoingSol tx wallet
      else largestIncomingSol tx wallet
    if solAmount = 0 ∨ tokenAmount = 0 then none
    else some ⟨direction, mainEntry.1, tokenAmount, solAmount⟩

/-- `createSwapFromRawTransfers`. -/
def createSwapFromRawTransfers (tx : ParsedTransaction) (wallet : String)
    (platform : String) : Option Swap :=
  match analyzeTradeDirection tx wallet with
  | none => none
  | some tradeInfo =>
    if tradeInfo.solAmount = 0 ∨ tradeInfo.tokenAmount = 0 then none
    else some
      { signature := tx.signature
        timestamp := tx.blockTime
        fee := tx.fee
        tokenMint := tradeInfo.tokenMint
        tokenAmount := tradeInfo.tokenAmount
        solAmount := tradeInfo.solAmount
        direction := tradeInfo.direction
        platform := platform
        pricePerToken := tradeInfo.solAmount / tradeInfo.tokenAmount }

/-! ## The data-quality service (`dataQualityService.ts`)

The free-text `description` / `impact` / `recommendation` strings and the
`affectedTokens` list of an issue feed no computed result (only severities
and categories do), so issues are modelled by severity and category. -/

/-- Issue severity. -/
inductive Severity where
  | ERROR : Severity
  | WARNING : Severity
  | INFO : Severity
deriving DecidableEq, Repr

/-- Issue category. -/
inductive IssueCategory where
  | OVERSELL : IssueCategory
  | MISSING_DATA : IssueCategory
  | PRICE_DATA : IssueCategory
  | SWAP_DETECTION : IssueCategory
  | PNL_CALCULATION : IssueCategory
deriving DecidableEq, Repr

/-- A `DataQualityIssue` (severity and category). -/
structure DataQualityIssue where
  severity : Severity
  category : IssueCategory
deriving DecidableEq, Repr

/-- The derived confidence level. -/
inductive ConfidenceLevel where
  | HIGH : ConfidenceLevel
  | MEDIUM : ConfidenceLevel
  | LOW : ConfidenceLevel
deriving DecidableEq, Repr

/-- `DataQualityReport` (minus the recommendation strings, which are
presentation only). -/
structure DataQualityReport where
  overallScore : ℚ
  issues : List DataQualityIssue
  swapDetectionScore : ℚ
  pnlCalculationScore : ℚ
  dataCompletenessScore : ℚ
  priceDataScore : ℚ
  confidenceLevel : ConfidenceLevel
deriving DecidableEq, Repr

/-- `findRapidTrades`: consecutive same-mint swaps less than 5 seconds apart
in the timestamp-sorted list. -/
def findRapidTrades (swaps : List Swap) : List (Swap × Swap × ℚ) :=
  let sorted := sortByTimestamp swaps
  (sorted.zip sorted.tail).filterMap (fun p =>
    let timeDiff := p.2.timestamp - p.1.timestamp
    if timeDiff < 5 ∧ p.2.tokenMint = p.1.tokenMint then some (p.1, p.2, timeDiff) else none)

/-- Stable insertion by `blockTime` (model of the stable JS sort in
`findTimeGaps`). -/
def insertByBlockTime (x : ParsedTransaction) :
    List ParsedTransaction → List ParsedTransaction
  | [] => [x]
  | y :: ys => if y.blockTime < x.blockTime then y :: insertByBlockTime x ys else x :: y :: ys

/-- Stable sort of transactions by `blockTime`. -/
def sortByBlockTime : List ParsedTransaction → List ParsedTransaction
  | [] => []
  | x :: xs => insertByBlockTime x (sortByBlockTime xs)

/-- `findTimeGaps`: gaps of more than 24 hours between consecutive
transactions with a (truthy) `blockTime`. -/
def findTimeGaps (transactions : List ParsedTransaction) : List (ℚ × ℚ × ℚ) :=
  let sorted := sortByBlockTime (transactions.filter (fun t => decide (t.blockTime ≠ 0)))
  (sorted.zip sorted.tail).filterMap (fun p =>
    let hours := (p.2.blockTime - p.1.blockTime) / 3600
    if 24 < hours then some (p.1.blockTime, p.2.blockTime, hours) else none)

/-- `analyzeOversellSituations`, reduced to the `oversellTokens` list (the
only output the caller reads): per-mint (bought, sold) totals, then mints
with `totalSold > totalBought * 1.01`. -/
def oversellTokensOf (swaps : List Swap) : List String :=
  let summarize : List (String × ℚ × ℚ) → Swap → List (String × ℚ × ℚ) := fun m s =>
    let cur := (((m.find? (fun p => p.1 == s.tokenMint))).map Prod.snd).getD (0, 0)
    let upd : ℚ × ℚ :=
      match s.direction with
      | .buy => (cur.1 + s.tokenAmount, cur.2)
      | .sell => (cur.1, cur.2 + s.tokenAmount)
    let rec setEntry : List (String × ℚ × ℚ) → List (String × ℚ × ℚ)
      | [] => [(s.tokenMint, upd)]
      | p :: ps => if p.1 == s.tokenMint then (s.tokenMint, upd) :: ps else p :: setEntry ps
    setEntry m
  ((swaps.foldl summarize []).filter (fun p => p.2.1 * (101/100) < p.2.2)).map Prod.fst

/-- `assessSwapDetection`: score and the issues it appends.  The
`detectionRate` division is JS arithmetic (`0/0 = NaN`, `x/0 = Infinity`),
and `NaN < 0.1` / `Infinity < 0.1` are false. -/
def assessSwapDetection (transactions : List ParsedTransaction) (swaps : List Swap) :
    ℚ × List DataQualityIssue :=
  let detectionRate := jsDivQ (swaps.length : ℚ) (transactions.length : ℚ)
  let s₁ : ℚ × List DataQualityIssue :=
    if jsLt detectionRate (.num (1/10)) then (100 - 20, [⟨.WARNING, .SWAP_DETECTION⟩])
    else (100, [])
  let unknownPlatformCount := (swaps.filter (fun s => s.platform == "unknown")).length
  let s₂ : ℚ × List DataQualityIssue :=
    if (swaps.length : ℚ) * (2/10) < (unknownPlatformCount : ℚ) then
      (s₁.1 - 15, s₁.2 ++ [⟨.WARNING, .SWAP_DETECTION⟩])
    else s₁
  let s₃ : ℚ × List DataQualityIssue :=
    if 0 < (findRapidTrades swaps).length then (s₂.1 - 5, s₂.2 ++ [⟨.INFO, .SWAP_DETECTION⟩])
    else s₂
  (max 0 s₃.1, s₃.2)

/-- `assessPnLCalculation`: oversell, zero-cost-trade and extreme-PnL
penalties. -/
def assessPnLCalculation (swaps : List Swap) (closedTrades : List ClosedTrade) :
    ℚ × List DataQualityIssue :=
  let oversellTokens := oversellTokensOf swaps
  let s₁ : ℚ × List DataQualityIssue :=
    if oversellTokens ≠ [] then
      if 5 < oversellTokens.length then (100 - 40, [⟨.ERROR, .OVERSELL⟩])
      else (100 - 25, [⟨.WARNING, .OVERSELL⟩])
    else (100, [])
  let zeroCostTrades := closedTrades.filter (fun t => decide (t.totalCostBasisInSol = 0))
  let s₂ : ℚ × List DataQualityIssue :=
    if (closedTrades.length : ℚ) * (1/10) < (zeroCostTrades.length : ℚ) then
      (s₁.1 - 15, s₁.2 ++ [⟨.WARNING, .PNL_CALCULATION⟩])
    else s₁
  let extremePnLTrades := closedTrades.filter (fun t =>
    decide (10000 < |t.realizedPnLPercent|) || decide (1000 < t.realizedPnLInSol))
  let s₃ : ℚ × List DataQualityIssue :=
    if extremePnLTrades ≠ [] then (s₂.1 - 10, s₂.2 ++ [⟨.WARNING, .PNL_CALCULATION⟩])
    else s₂
  (max 0 s₃.1, s₃.2)

/-- `assessDataCompleteness`: large time gaps, missing `blockTime`, missing
signatures. -/
def assessDataCompleteness (transactions : List ParsedTransaction) :
    ℚ × List DataQualityIssue :=
  let timeGaps := findTimeGaps transactions
  let largeGaps := timeGaps.filter (fun g => 168 < g.2.2)
  let s₁ : ℚ × List DataQualityIssue :=
    if timeGaps ≠ [] ∧ largeGaps ≠ [] then (100 - 20, [⟨.WARNING, .MISSING_DATA⟩])
    else (100, [])
  let missingBlockTime := (transactions.filter (fun t => decide (t.blockTime = 0))).length
  let s₂ : ℚ × List DataQualityIssue :=
    if 0 < missingBlockTime then (s₁.1 - 30, s₁.2 ++ [⟨.ERROR, .MISSING_DATA⟩]) else s₁
  let missingSignatures := (transactions.filter (fun t => t.signature == "")).length
  let s₃ : ℚ × List DataQualityIssue :=
    if 0 < missingSignatures then (s₂.1 - 25, s₂.2 ++ [⟨.ERROR, .MISSING_DATA⟩]) else s₂
  (max 0 s₃.1, s₃.2)

/-- `assessPriceDataQuality`: zero-average-cost holdings. -/
def assessPriceDataQuality (openHoldings : List Holding) : ℚ × List DataQualityIssue :=
  let s₁ : ℚ × List DataQualityIssue :=
    if openHoldings ≠ [] then
      let zeroCostHoldings := openHoldings.filter (fun h => decide (h.averageCostPerUnit = 0))
      if zeroCostHoldings ≠ [] then (100 - 15, [⟨.WARNING, .PRICE_DATA⟩]) else (100, [])
    else (100, [])
  (max 0 s₁.1, s₁.2)

/-- `determineConfidenceLevel`. -/
def determineConfidenceLevel (score : ℚ) (issues : List DataQualityIssue) :
    ConfidenceLevel :=
  let hasErrors := issues.any (fun i => decide (i.severity = Severity.ERROR))
  let hasMultipleWarnings :=
    3 < (issues.filter (fun i => decide (i.severity = Severity.WARNING))).length
  if hasErrors = true ∨ score < 60 then .LOW
  else if hasMultipleWarnings ∨ score < 80 then .MEDIUM
  else .HIGH

/-- `assessDataQuality`: component scores, weighted overall score, and the
derived confidence level. -/
def assessDataQuality (transactions : List ParsedTransaction) (swaps : List Swap)
    (closedTrades : List ClosedTrade) (openHoldings : List Holding) : DataQualityReport :=
  let sd := assessSwapDetection transactions swaps
  let pnl := assessPnLCalculation swaps closedTrades
  let dc := assessDataCompleteness transactions
  let pd := assessPriceDataQuality openHoldings
  let issues := sd.2 ++ pnl.2 ++ dc.2 ++ pd.2
  let overallScore := sd.1 * (3/10) + pnl.1 * (3/10) + dc.1 * (25/100) + pd.1 * (15/100)
  { overallScore := overallScore
    issues := issues
    swapDetectionScore := sd.1
    pnlCalculationScore := pnl.1
    dataCompletenessScore := dc.1
    priceDataScore := pd.1
    confidenceLevel := determineConfidenceLevel overallScore issues }

/-- The contribution of one token transfer to the account's net delta of
mint `m` (spec §4.1): received amounts count positively, sent amounts
negatively; a transfer that both leaves and reaches the account counts as
sent, matching the classifier's overwrite; base-asset (wrapped-SOL)
transfers are excluded. -/
def transferContribution (wallet : String) (t : TokenTransfer) (m : String) : ℚ :=
  if t.mint = m ∧ ¬ isSolOrWsol t.mint then
    if t.fromUserAccount = wallet then -|t.tokenAmount|
    else if t.toUserAccount = wallet then |t.tokenAmount|
    else 0
  else 0

/-- The account's net delta of mint `m` within one transaction (spec §4.1). -/
def netTokenDelta (tx : ParsedTransaction) (wallet : String) (m : String) : ℚ :=
  (tx.tokenTransfers.map (fun t => transferContribution wallet t m)).sum

/-- The holding as updated by `processBuyEnhanced`: the new lot appended and
the total quantity and weighted average cost recomputed (starting from a
fresh empty holding when the mint is new). -/
def buyUpdatedHolding (st : EngineState) (swap : Swap) : Holding :=
  let lot : Lot :=
    { quantity := swap.tokenAmount
      costPerUnit := swap.pricePerToken
      timestamp := swap.timestamp
      signature := swap.signature }
  let holding :=
    (getHolding st.holdings swap.tokenMint).getD
      { tokenMint := swap.tokenMint, purchaseLots := [], totalQuantity := 0
        averageCostPerUnit := 0 }
  { holding with
      purchaseLots := holding.purchaseLots ++ [lot]
      totalQuantity := holding.totalQuantity + lot.quantity
      averageCostPerUnit :=
        lotsCost (holding.purchaseLots ++ [lot]) / (holding.totalQuantity + lot.quantity) }

/-- Decidable side condition on the final engine state for one asset: its
remaining holding (if any) is either above the dust epsilon (so the cleaning
pass keeps it) or carries no cost. -/
def finalHoldingOK (st : EngineState) (mint : String) : Bool :=
  match getHolding st.holdings mint with
  | some h => decide (eps < h.totalQuantity) || decide (lotsCost h.purchaseLots = 0)
  | none => true

/-- Structural invariant of the holdings map maintained by the engine:
recorded quantities are nonnegative and bounded below by the lot masses, lot
quantities are positive, and mints occur at most once. -/
def HoldingsInv (hs : List Holding) : Prop :=
  (∀ h ∈ hs, 0 ≤ h.totalQuantity ∧ lotsQty h.purchaseLots ≤ h.totalQuantity ∧
    ∀ l ∈ h.purchaseLots, 0 < l.quantity) ∧
  (hs.map Holding.tokenMint).Nodup

/-- Run invariant: well-formed holdings and nonnegative closed-trade
quantities. -/
def StateInv (st : EngineState) : Prop :=
  HoldingsInv st.holdings ∧ ∀ t ∈ st.closedTrades, 0 ≤ t.quantity

/-! ## Basic lemmas about lot aggregates -/

theorem lotsQty_nil : lotsQty [] = 0 := rfl

theorem lotsQty_cons (l : Lot) (ls : List Lot) :
    lotsQty (l :: ls) = l.quantity + lotsQty ls := by
  simp [lotsQty]

theorem lotsCost_nil : lotsCost [] = 0 := rfl

theorem lotsCost_cons (l : Lot) (ls : List Lot) :
    lotsCost (l :: ls) = l.quantity * l.costPerUnit + lotsCost ls := by
  simp [lotsCost]

theorem lotsQty_append (ls : List Lot) (l : Lot) :
    lotsQty (ls ++ [l]) = lotsQty ls + l.quantity := by
  simp [lotsQty]

theorem lotsCost_append (ls : List Lot) (l : Lot) :
    lotsCost (ls ++ [l]) = lotsCost ls + l.quantity * l.costPerUnit := by
  simp [lotsCost]

theorem lotsQty_nonneg {ls : List Lot} (h : ∀ l ∈ ls, 0 ≤ l.quantity) :
    0 ≤ lotsQty ls := by
  induction ls with
  | nil => simp [lotsQty_nil]
  | cons a as ih =>
    rw [lotsQty_cons]
    have h₁ := h a (List.mem_cons_self a as)
    have h₂ := ih (fun l hl => h l (List.mem_cons_of_mem a hl))
    linarith

theorem eps_pos : (0 : ℚ) < eps := by norm_num [eps]

theorem getLast_quantity_le_lotsQty :
    ∀ (ls : List Lot) (hne : ls ≠ []), (∀ l ∈ ls, 0 ≤ l.quantity) →
      (ls.getLast hne).quantity ≤ lotsQty ls
  | [], hne, _ => absurd rfl hne
  | [l], _, _ => by simp [lotsQty_cons, lotsQty_nil]
  | l :: l₂ :: rest, _, h => by
    have ih := getLast_quantity_le_lotsQty (l₂ :: rest) (by simp)
      (fun x hx => h x (List.mem_cons_of_mem l hx))
    have hl : 0 ≤ l.quantity := h l (List.mem_cons_self _ _)
    rw [List.getLast_cons (by simp : l₂ :: rest ≠ []), lotsQty_cons]
    linarith

/-! ## Lemmas about the FIFO consumption loop -/

theorem fifoConsume_nil_eq (remaining c s ts : ℚ) :
    fifoConsume remaining [] c s ts = (c, s, ts, []) := rfl

theorem fifoConsume_cons_eq (remaining : ℚ) (lot : Lot) (rest : List Lot) (c s ts : ℚ) :
    fifoConsume remaining (lot :: rest) c s ts =
      if remaining ≤ eps then (c, s, ts, lot :: rest)
      else
        if lot.quantity - eps ≤ min remaining lot.quantity then
          fifoConsume (remaining - min remaining lot.quantity) rest
            (c + min remaining lot.quantity * lot.costPerUnit)
            (s + min remaining lot.quantity) (if ts = 0 then lot.timestamp else ts)
        else
          (c + min remaining lot.quantity * lot.costPerUnit,
           s + min remaining lot.quantity, (if ts = 0 then lot.timestamp else ts),
           { lot with quantity := lot.quantity - min remaining lot.quantity } :: rest) := rfl

theorem consumeExactB_cons_eq (remaining : ℚ) (lot : Lot) (rest : List Lot) :
    consumeExactB remaining (lot :: rest) =
      if remaining ≤ eps then true
      else
        if lot.quantity - eps ≤ min remaining lot.quantity then
          decide (min remaining lot.quantity = lot.quantity) &&
            consumeExactB (remaining - min remaining lot.quantity) rest
        else true := rfl

theorem fifoConsume_bounds :
    ∀ (lots : List Lot) (remaining c s ts : ℚ), (∀ l ∈ lots, 0 < l.quantity) →
      s ≤ (fifoConsume remaining lots c s ts).2.1 ∧
      (fifoConsume remaining lots c s ts).2.1 +
        lotsQty (fifoConsume remaining lots c s ts).2.2.2 ≤ s + lotsQty lots ∧
      (∀ l ∈ (fifoConsume remaining lots c s ts).2.2.2, 0 < l.quantity)
  | [], remaining, c, s, ts, _ => by
    simp [fifoConsume, lotsQty_nil]
  | lot :: rest, remaining, c, s, ts, hpos => by
    have hq : 0 < lot.quantity := hpos lot (List.mem_cons_self _ _)
    have hrest : ∀ l ∈ rest, 0 < l.quantity :=
      fun l hl => hpos l (List.mem_cons_of_mem lot hl)
    by_cases hr : remaining ≤ eps
    · simp only [fifoConsume, if_pos hr]
      exact ⟨le_refl s, le_refl _, hpos⟩
    · have hr' : eps < remaining := lt_of_not_le hr
      have hcons_pos : 0 < min remaining lot.quantity :=
        lt_min (lt_trans eps_pos hr') hq
      have hcons_le : min remaining lot.quantity ≤ lot.quantity := min_le_right _ _
      by_cases hfull : lot.quantity - eps ≤ min remaining lot.quantity
      · have ih := fifoConsume_bounds rest (remaining - min remaining lot.quantity)
          (c + min remaining lot.quantity * lot.costPerUnit)
          (s + min remaining lot.quantity) (if ts = 0 then lot.timestamp else ts) hrest
        simp only [fifoConsume, if_neg hr, if_pos hfull]
        refine ⟨le_trans (by linarith) ih.1, ?_, ih.2.2⟩
        have h2 := ih.2.1
        rw [lotsQty_cons]
        linarith
      · have hlt : min remaining lot.quantity < lot.quantity - eps := lt_of_not_le hfull
        simp only [fifoConsume, if_neg hr, if_neg hfull]
        refine ⟨by linarith, ?_, ?_⟩
        · rw [lotsQty_cons, lotsQty_cons]
          simp only
          linarith
        · intro l hl
          rcases List.mem_cons.mp hl with h1 | h2
          · subst h1
            simp only
            have := eps_pos
            linarith
          · exact hrest l h2

theorem fifoConsume_sold_nonneg {lots : List Lot} {remaining c ts : ℚ}
    (hpos : ∀ l ∈ lots, 0 < l.quantity) :
    0 ≤ (fifoConsume remaining lots c 0 ts).2.1 :=
  (fifoConsume_bounds lots remaining c 0 ts hpos).1

theorem fifoConsume_sold_le {lots : List Lot} {remaining c ts : ℚ}
    (hpos : ∀ l ∈ lots, 0 < l.quantity) :
    (fifoConsume remaining lots c 0 ts).2.1 ≤ lotsQty lots := by
  have h := (fifoConsume_bounds lots remaining c 0 ts hpos).2.1
  have hq := @lotsQty_nonneg ((fifoConsume remaining lots c 0 ts).2.2.2)
    (fun l hl => le_of_lt ((fifoConsume_bounds lots remaining c 0 ts hpos).2.2 l hl))
  linarith

theorem fifoConsume_sold_pos {lot : Lot} {rest : List Lot} {remaining c s ts : ℚ}
    (hpos : ∀ l ∈ lot :: rest, 0 < l.quantity) (hr : eps < remaining) :
    s < (fifoConsume remaining (lot :: rest) c s ts).2.1 := by
  have hq : 0 < lot.quantity := hpos lot (List.mem_cons_self _ _)
  have hrest : ∀ l ∈ rest, 0 < l.quantity :=
    fun l hl => hpos l (List.mem_cons_of_mem lot hl)
  have hcons_pos : 0 < min remaining lot.quantity := lt_min (lt_trans eps_pos hr) hq
  rw [fifoConsume_cons_eq, if_neg (not_le_of_lt hr)]
  by_cases hfull : lot.quantity - eps ≤ min remaining lot.quantity
  · rw [if_pos hfull]
    have ih := (fifoConsume_bounds rest (remaining - min remaining lot.quantity)
      (c + min remaining lot.quantity * lot.costPerUnit)
      (s + min remaining lot.quantity) (if ts = 0 then lot.timestamp else ts) hrest).1
    linarith
  · rw [if_neg hfull]
    show s < s + min remaining lot.quantity
    linarith

theorem fifoConsume_ts_stable :
    ∀ (lots : List Lot) (remaining c s ts : ℚ), ts ≠ 0 →
      (fifoConsume remaining lots c s ts).2.2.1 = ts
  | [], remaining, c, s, ts, _ => rfl
  | lot :: rest, remaining, c, s, ts, hts => by
    rw [fifoConsume_cons_eq]
    by_cases hr : remaining ≤ eps
    · rw [if_pos hr]
    · rw [if_neg hr, if_neg hts]
      by_cases hfull : lot.quantity - eps ≤ min remaining lot.quantity
      · rw [if_pos hfull]
        exact fifoConsume_ts_stable rest _ _ _ ts hts
      · rw [if_neg hfull]

theorem fifoConsume_ts_head {lot : Lot} {rest : List Lot} {remaining c s : ℚ}
    (hr : eps < remaining) (hts : lot.timestamp ≠ 0) :
    (fifoConsume remaining (lot :: rest) c s 0).2.2.1 = lot.timestamp := by
  rw [fifoConsume_cons_eq, if_neg (not_le_of_lt hr), if_pos (rfl : (0 : ℚ) = 0)]
  by_cases hfull : lot.quantity - eps ≤ min remaining lot.quantity
  · rw [if_pos hfull]
    exact fifoConsume_ts_stable rest _ _ _ _ hts
  · rw [if_neg hfull]

theorem fifoConsume_consume_all :
    ∀ (lots : List Lot) (c s ts : ℚ) (hne : lots ≠ []),
      (∀ l ∈ lots, 0 < l.quantity) → eps < (lots.getLast hne).quantity →
      (fifoConsume (lotsQty lots) lots c s ts).1 = c + lotsCost lots ∧
      (fifoConsume (lotsQty lots) lots c s ts).2.1 = s + lotsQty lots ∧
      (fifoConsume (lotsQty lots) lots c s ts).2.2.2 = []
  | [], _, _, _, hne, _, _ => absurd rfl hne
  | [lot], c, s, ts, _, hpos, hlast => by
    have hq : eps < lot.quantity := by simpa using hlast
    have hrem : lotsQty [lot] = lot.quantity := by simp [lotsQty]
    have hnotle : ¬ lotsQty [lot] ≤ eps := by rw [hrem]; exact not_le_of_lt hq
    have hmin : min (lotsQty [lot]) lot.quantity = lot.quantity := by
      rw [hrem]; exact min_self _
    have hfull : lot.quantity - eps ≤ min (lotsQty [lot]) lot.quantity := by
      rw [hmin]; linarith [eps_pos]
    rw [fifoConsume_cons_eq, if_neg hnotle, if_pos hfull, hmin, fifoConsume_nil_eq]
    refine ⟨?_, ?_, rfl⟩
    · show c + lot.quantity * lot.costPerUnit = c + lotsCost [lot]
      rw [lotsCost_cons, lotsCost_nil]; ring
    · show s + lot.quantity = s + lotsQty [lot]
      rw [hrem]
  | lot :: l₂ :: rest, c, s, ts, _, hpos, hlast => by
    have hq : 0 < lot.quantity := hpos lot (List.mem_cons_self _ _)
    have hrest : ∀ l ∈ l₂ :: rest, 0 < l.quantity :=
      fun l hl => hpos l (List.mem_cons_of_mem lot hl)
    have hlast' : eps < ((l₂ :: rest).getLast (by simp)).quantity := by
      rwa [List.getLast_cons (by simp : l₂ :: rest ≠ [])] at hlast
    have hQ₂ : eps < lotsQty (l₂ :: rest) :=
      lt_of_lt_of_le hlast'
        (getLast_quantity_le_lotsQty (l₂ :: rest) (by simp)
          (fun l hl => le_of_lt (hrest l hl)))
    have hrem : lotsQty (lot :: l₂ :: rest) = lot.quantity + lotsQty (l₂ :: rest) :=
      lotsQty_cons _ _
    have hnotle : ¬ lotsQty (lot :: l₂ :: rest) ≤ eps := by
      rw [hrem]; have := eps_pos; push_neg; linarith
    have hmin : min (lotsQty (lot :: l₂ :: rest)) lot.quantity = lot.quantity := by
      rw [hrem]
      have h2 : 0 ≤ lotsQty (l₂ :: rest) := le_of_lt (lt_trans eps_pos hQ₂)
      exact min_eq_right (by linarith)
    have hfull : lot.quantity - eps ≤ min (lotsQty (lot :: l₂ :: rest)) lot.quantity := by
      rw [hmin]; linarith [eps_pos]
    have hstep : lotsQty (lot :: l₂ :: rest) - lot.quantity = lotsQty (l₂ :: rest) := by
      rw [hrem]; ring
    have ih := fifoConsume_consume_all (l₂ :: rest)
      (c + lot.quantity * lot.costPerUnit) (s + lot.quantity)
      (if ts = 0 then lot.timestamp else ts) (by simp) hrest hlast'
    have hfull' : lot.quantity - eps ≤ lot.quantity := by linarith [eps_pos]
    rw [fifoConsume_cons_eq, if_neg hnotle, hmin, if_pos hfull', hstep]
    refine ⟨?_, ?_, ih.2.2⟩
    · rw [ih.1]; simp only [lotsCost_cons]; ring
    · rw [ih.2.1]; simp only [lotsQty_cons]; ring

theorem fifoConsume_exact :
    ∀ (lots : List Lot) (remaining c s ts : ℚ), consumeExactB remaining lots = true →
      (fifoConsume remaining lots c s ts).1 +
        lotsCost (fifoConsume remaining lots c s ts).2.2.2 = c + lotsCost lots ∧
      (fifoConsume remaining lots c s ts).2.1 +
        lotsQty (fifoConsume remaining lots c s ts).2.2.2 = s + lotsQty lots
  | [], remaining, c, s, ts, _ => by
    rw [fifoConsume_nil_eq]
    exact ⟨rfl, rfl⟩
  | lot :: rest, remaining, c, s, ts, hex => by
    rw [fifoConsume_cons_eq]
    by_cases hr : remaining ≤ eps
    · rw [if_pos hr]
      exact ⟨rfl, rfl⟩
    · rw [if_neg hr]
      by_cases hfull : lot.quantity - eps ≤ min remaining lot.quantity
      · have hex' : decide (min remaining lot.quantity = lot.quantity) = true ∧
            consumeExactB (remaining - min remaining lot.quantity) rest = true := by
          rw [consumeExactB_cons_eq, if_neg hr, if_pos hfull, Bool.and_eq_true] at hex
          exact hex
        have heq : min remaining lot.quantity = lot.quantity := of_decide_eq_true hex'.1
        have ih := fifoConsume_exact rest (remaining - min remaining lot.quantity)
          (c + min remaining lot.quantity * lot.costPerUnit)
          (s + min remaining lot.quantity) (if ts = 0 then lot.timestamp else ts) hex'.2
        rw [if_pos hfull]
        constructor
        · rw [ih.1, heq, lotsCost_cons]; ring
        · rw [ih.2, heq, lotsQty_cons]; ring
      · rw [if_neg hfull]
        constructor
        · show c + min remaining lot.quantity * lot.costPerUnit +
            lotsCost ({ lot with quantity := lot.quantity - min remaining lot.quantity } :: rest) =
            c + lotsCost (lot :: rest)
          rw [lotsCost_cons, lotsCost_cons]
          simp only
          ring
        · show s + min remaining lot.quantity +
            lotsQty ({ lot with quantity := lot.quantity - min remaining lot.quantity } :: rest) =
            s + lotsQty (lot :: rest)
          rw [lotsQty_cons, lotsQty_cons]
          simp only
          ring

/-! ## Lemmas about the insertion-ordered holdings map -/

theorem getHolding_nil (mint : String) : getHolding [] mint = none := rfl

theorem getHolding_eq_some {hs : List Holding} {mint : String} {h : Holding}
    (hget : getHolding hs mint = some h) : h.tokenMint = mint ∧ h ∈ hs := by
  constructor
  · have := List.find?_some hget
    simpa using this
  · exact List.mem_of_find?_eq_some hget

theorem getHolding_none_iff {hs : List Holding} {mint : String} :
    getHolding hs mint = none ↔ ∀ h ∈ hs, h.tokenMint ≠ mint := by
  unfold getHolding
  rw [List.find?_eq_none]
  constructor
  · intro hall h hm
    have := hall h hm
    simpa using this
  · intro hall h hm
    simpa using hall h hm

theorem getHolding_set (hs : List Holding) (h : Holding) (mint : String) :
    getHolding (setHolding hs h) mint =
      if h.tokenMint = mint then some h else getHolding hs mint := by
  induction hs with
  | nil =>
    by_cases hk : h.tokenMint = mint
    · simp [setHolding, getHolding, List.find?, hk]
    · have hb : (h.tokenMint == mint) = false := by simpa using hk
      simp [setHolding, getHolding, List.find?, hb, hk]
  | cons x xs ih =>
    by_cases hx : x.tokenMint == h.tokenMint
    · have hx' : x.tokenMint = h.tokenMint := by simpa using hx
      simp only [setHolding, if_pos hx]
      by_cases hk : h.tokenMint = mint
      · simp [getHolding, List.find?, hk]
      · have hxk : ¬ (x.tokenMint == mint) = true := by
          simp [hx']; exact hk
        simp only [if_neg hk]
        unfold getHolding
        simp only [List.find?]
        have h1 : (x.tokenMint == mint) = false := by
          simpa using hxk
        have h2 : (h.tokenMint == mint) = false := by
          simpa using hk
        rw [h1, h2]
    · have hx' : x.tokenMint ≠ h.tokenMint := by simpa using hx
      simp only [setHolding, if_neg hx]
      unfold getHolding
      simp only [List.find?]
      by_cases hxm : (x.tokenMint == mint) = true
      · have hk : ¬ h.tokenMint = mint := by
          intro he
          exact hx' (by simp at hxm; rw [hxm, he])
        rw [if_neg hk]
        simp [hxm]
      · have h1 : (x.tokenMint == mint) = false := by simpa using hxm
        rw [h1]
        exact ih

theorem getHolding_delete (hs : List Holding) (mint mint' : String) :
    getHolding (deleteHolding hs mint) mint' =
      if mint' = mint then none else getHolding hs mint' := by
  induction hs with
  | nil =>
    by_cases hk : mint' = mint <;> simp [deleteHolding, getHolding, hk]
  | cons x xs ih =>
    unfold deleteHolding at ih ⊢
    rw [List.filter_cons]
    by_cases hx : (x.tokenMint != mint) = true
    · rw [if_pos hx]
      unfold getHolding at ih ⊢
      simp only [List.find?]
      by_cases hxm : (x.tokenMint == mint') = true
      · have hne : ¬ mint' = mint := by
          intro he
          subst he
          simp at hx hxm
          exact hx hxm
        rw [if_neg hne, hxm]
      · have h1 : (x.tokenMint == mint') = false := by simpa using hxm
        rw [h1, ih]
    · rw [if_neg hx]
      rw [ih]
      have hx' : x.tokenMint = mint := by
        simp only [bne_iff_ne, ne_eq, not_not] at hx
        exact hx
      by_cases hk : mint' = mint
      · rw [if_pos hk, if_pos hk]
      · rw [if_neg hk, if_neg hk]
        unfold getHolding
        simp only [List.find?]
        have h1 : (x.tokenMint == mint') = false := by
          simp [hx']
          intro he
          exact hk he.symm
        rw [h1]

theorem mem_setHolding {hs : List Holding} {h h' : Holding}
    (hm : h' ∈ setHolding hs h) : h' = h ∨ h' ∈ hs := by
  induction hs with
  | nil =>
    simp [setHolding] at hm
    exact Or.inl hm
  | cons x xs ih =>
    unfold setHolding at hm
    by_cases hx : (x.tokenMint == h.tokenMint) = true
    · rw [if_pos hx] at hm
      rcases List.mem_cons.mp hm with h1 | h2
      · exact Or.inl h1
      · exact Or.inr (List.mem_cons_of_mem x h2)
    · rw [if_neg hx] at hm
      rcases List.mem_cons.mp hm with h1 | h2
      · exact Or.inr (by rw [h1]; exact List.mem_cons_self x xs)
      · rcases ih h2 with h3 | h4
        · exact Or.inl h3
        · exact Or.inr (List.mem_cons_of_mem x h4)

theorem mem_deleteHolding {hs : List Holding} {mint : String} {h' : Holding}
    (hm : h' ∈ deleteHolding hs mint) : h' ∈ hs :=
  List.mem_of_mem_filter hm

theorem setHolding_keys (hs : List Holding) (h : Holding) :
    (setHolding hs h).map Holding.tokenMint =
      if h.tokenMint ∈ hs.map Holding.tokenMint then hs.map Holding.tokenMint
      else hs.map Holding.tokenMint ++ [h.tokenMint] := by
  induction hs with
  | nil => simp [setHolding]
  | cons x xs ih =>
    unfold setHolding
    by_cases hx : (x.tokenMint == h.tokenMint) = true
    · have hx' : x.tokenMint = h.tokenMint := by simpa using hx
      rw [if_pos hx]
      have hmem : h.tokenMint ∈ (x :: xs).map Holding.tokenMint := by
        simp [hx']
      rw [if_pos hmem]
      simp [hx']
    · have hx' : x.tokenMint ≠ h.tokenMint := by simpa using hx
      rw [if_neg hx]
      by_cases hmem : h.tokenMint ∈ xs.map Holding.tokenMint
      · have hmem' : h.tokenMint ∈ (x :: xs).map Holding.tokenMint := by
          simp [hmem]
        rw [if_pos hmem']
        simp only [List.map_cons]
        rw [ih, if_pos hmem]
      · have hmem' : h.tokenMint ∉ (x :: xs).map Holding.tokenMint := by
          simp [hmem, hx'.symm]
        rw [if_neg hmem']
        simp only [List.map_cons, List.cons_append]
        rw [ih, if_neg hmem]

theorem nodup_keys_set {hs : List Holding} (h : Holding)
    (hnd : (hs.map Holding.tokenMint).Nodup) :
    ((setHolding hs h).map Holding.tokenMint).Nodup := by
  rw [setHolding_keys]
  by_cases hmem : h.tokenMint ∈ hs.map Holding.tokenMint
  · rw [if_pos hmem]; exact hnd
  · rw [if_neg hmem]
    rw [List.nodup_append]
    exact ⟨hnd, List.nodup_singleton _, by simpa using hmem⟩

theorem nodup_keys_delete {hs : List Holding} (mint : String)
    (hnd : (hs.map Holding.tokenMint).Nodup) :
    ((deleteHolding hs mint).map Holding.tokenMint).Nodup :=
  List.Nodup.sublist (List.Sublist.map Holding.tokenMint (List.filter_sublist hs)) hnd

theorem unique_by_key :
    ∀ (hs : List Holding) (mint : String) (h h' : Holding),
      (hs.map Holding.tokenMint).Nodup → getHolding hs mint = some h →
      h' ∈ hs → h'.tokenMint = mint → h' = h
  | [], _, _, _, _, hget, _, _ => by simp [getHolding] at hget
  | x :: xs, mint, h, h', hnd, hget, hmem, hkey => by
    rw [List.map_cons, List.nodup_cons] at hnd
    unfold getHolding at hget
    simp only [List.find?] at hget
    by_cases hx : (x.tokenMint == mint) = true
    · rw [hx] at hget
      simp at hget
      rcases List.mem_cons.mp hmem with h1 | h2
      · rw [h1, hget]
      · exfalso
        have hx' : x.tokenMint = mint := by simpa using hx
        have hmm : mint ∈ xs.map Holding.tokenMint :=
          List.mem_map.mpr ⟨h', h2, hkey⟩
        rw [hx'] at hnd
        exact hnd.1 hmm
    · have h1 : (x.tokenMint == mint) = false := by simpa using hx
      rw [h1] at hget
      rcases List.mem_cons.mp hmem with h2 | h3
      · exfalso
        have hxx : x.tokenMint = mint := by rw [h2] at hkey; exact hkey
        simp [hxx] at h1
      · exact unique_by_key xs mint h h' hnd.2 hget h3 hkey

/-! ## Lemmas about the stable timestamp sort -/

theorem insertByTs_perm (x : Swap) : ∀ l : List Swap, (insertByTs x l).Perm (x :: l)
  | [] => List.Perm.refl _
  | y :: ys => by
    unfold insertByTs
    by_cases hy : y.timestamp < x.timestamp
    · rw [if_pos hy]
      exact ((insertByTs_perm x ys).cons y).trans (List.Perm.swap x y ys)
    · rw [if_neg hy]

theorem sortByTimestamp_perm : ∀ l : List Swap, (sortByTimestamp l).Perm l
  | [] => List.Perm.refl _
  | x :: xs =>
    (insertByTs_perm x (sortByTimestamp xs)).trans ((sortByTimestamp_perm xs).cons x)

theorem mem_insertByTs {x a : Swap} {l : List Swap} (h : a ∈ insertByTs x l) :
    a = x ∨ a ∈ l := by
  have := (insertByTs_perm x l).mem_iff.mp h
  simpa using this

theorem insertByTs_pairwise {x : Swap} :
    ∀ {l : List Swap}, l.Pairwise (fun a b => a.timestamp ≤ b.timestamp) →
      (insertByTs x l).Pairwise (fun a b => a.timestamp ≤ b.timestamp) := by
  intro l
  induction l with
  | nil => intro _; simp [insertByTs]
  | cons y ys ih =>
    intro hp
    rw [List.pairwise_cons] at hp
    unfold insertByTs
    by_cases hy : y.timestamp < x.timestamp
    · rw [if_pos hy]
      rw [List.pairwise_cons]
      constructor
      · intro a ha
        rcases mem_insertByTs ha with h1 | h2
        · rw [h1]; exact le_of_lt hy
        · exact hp.1 a h2
      · exact ih hp.2
    · rw [if_neg hy]
      rw [List.pairwise_cons]
      constructor
      · intro a ha
        rcases List.mem_cons.mp ha with h1 | h2
        · rw [h1]; exact le_of_not_lt hy
        · exact le_trans (le_of_not_lt hy) (hp.1 a h2)
      · rw [List.pairwise_cons]
        exact hp

theorem sortByTimestamp_pairwise :
    ∀ l : List Swap,
      (sortByTimestamp l).Pairwise (fun a b => a.timestamp ≤ b.timestamp)
  | [] => by simp [sortByTimestamp]
  | x :: xs => by
    unfold sortByTimestamp
    exact insertByTs_pairwise (sortByTimestamp_pairwise xs)

theorem sorted_perm_distinct_eq :
    ∀ (l₁ l₂ : List Swap), l₁.Perm l₂ →
      l₁.Pairwise (fun a b => a.timestamp ≤ b.timestamp) →
      l₂.Pairwise (fun a b => a.timestamp ≤ b.timestamp) →
      l₁.Pairwise (fun a b => a.timestamp ≠ b.timestamp) →
      l₁ = l₂
  | [], l₂, hperm, _, _, _ => by
    have := hperm.nil_eq
    exact this
  | a :: t₁, l₂, hperm, hs₁, hs₂, hd₁ => by
    have ha₂ : a ∈ l₂ := hperm.mem_iff.mp (List.mem_cons_self _ _)
    match l₂, hs₂ with
    | [], _ => exact absurd (hperm.symm.nil_eq) (by simp)
    | b :: t₂, hs₂ =>
      rw [List.pairwise_cons] at hs₁ hs₂ hd₁
      have hab : a = b := by
        by_contra hne
        have hat₂ : a ∈ t₂ := by
          rcases List.mem_cons.mp ha₂ with h | h
          · exact absurd h hne
          · exact h
        have hb₁ : b ∈ a :: t₁ := hperm.symm.mem_iff.mp (List.mem_cons_self _ _)
        have hbt₁ : b ∈ t₁ := by
          rcases List.mem_cons.mp hb₁ with h | h
          · exact absurd h.symm hne
          · exact h
        have h₁ : a.timestamp ≤ b.timestamp := hs₁.1 b hbt₁
        have h₂ : b.timestamp ≤ a.timestamp := hs₂.1 a hat₂
        exact hd₁.1 b hbt₁ (le_antisymm h₁ h₂)
      subst hab
      have htail : t₁.Perm t₂ := hperm.cons_inv
      rw [sorted_perm_distinct_eq t₁ t₂ htail hs₁.2 hs₂.2 hd₁.2]

/-! ## Branch and shape lemmas for the sell handlers -/

theorem processSell_missing_none {st : EngineState} {swap : Swap}
    (h : getHolding st.holdings swap.tokenMint = none) :
    processSellEnhanced st swap = handleMissingBuy st swap := by
  unfold processSellEnhanced
  rw [h]

theorem processSell_missing_empty {st : EngineState} {swap : Swap} {h : Holding}
    (hget : getHolding st.holdings swap.tokenMint = some h)
    (hl : h.purchaseLots = []) :
    processSellEnhanced st swap = handleMissingBuy st swap := by
  unfold processSellEnhanced
  rw [hget]
  simp [hl]

theorem processSell_oversell {st : EngineState} {swap : Swap} {h : Holding}
    (hget : getHolding st.holdings swap.tokenMint = some h)
    (hl : h.purchaseLots ≠ [])
    (hov : h.totalQuantity * oversellTolerance < swap.tokenAmount) :
    processSellEnhanced st swap = handlePartialOversell st swap h := by
  unfold processSellEnhanced
  rw [hget]
  simp only [if_neg hl, if_pos hov]

theorem processSell_normal {st : EngineState} {swap : Swap} {h : Holding}
    (hget : getHolding st.holdings swap.tokenMint = some h)
    (hl : h.purchaseLots ≠ [])
    (hov : ¬ h.totalQuantity * oversellTolerance < swap.tokenAmount) :
    processSellEnhanced st swap = handleNormalSell st swap h := by
  unfold processSellEnhanced
  rw [hget]
  simp only [if_neg hl, if_neg hov]

theorem handleNormalSell_closedTrades (st : EngineState) (swap : Swap) (holding : Holding) :
    (handleNormalSell st swap holding).closedTrades = st.closedTrades ++
      [{ tokenMint := swap.tokenMint
         totalCostBasisInSol := (fifoConsume swap.tokenAmount holding.purchaseLots 0 0 0).1
         totalProceedsInSol := swap.solAmount
         realizedPnLInSol :=
           swap.solAmount - (fifoConsume swap.tokenAmount holding.purchaseLots 0 0 0).1
         realizedPnLPercent :=
           if 0 < (fifoConsume swap.tokenAmount holding.purchaseLots 0 0 0).1 then
             (swap.solAmount - (fifoConsume swap.tokenAmount holding.purchaseLots 0 0 0).1) /
               (fifoConsume swap.tokenAmount holding.purchaseLots 0 0 0).1 * 100
           else 0
         holdingDurationSeconds :=
           swap.timestamp - (fifoConsume swap.tokenAmount holding.purchaseLots 0 0 0).2.2.1
         buyTimestamp := (fifoConsume swap.tokenAmount holding.purchaseLots 0 0 0).2.2.1
         sellTimestamp := swap.timestamp
         quantity := (fifoConsume swap.tokenAmount holding.purchaseLots 0 0 0).2.1 }] := rfl

theorem handleNormalSell_holdings (st : EngineState) (swap : Swap) (holding : Holding) :
    (handleNormalSell st swap holding).holdings =
      if holding.totalQuantity - (fifoConsume swap.tokenAmount holding.purchaseLots 0 0 0).2.1
          < eps then
        deleteHolding st.holdings swap.tokenMint
      else
        setHolding st.holdings
          { holding with
              purchaseLots := (fifoConsume swap.tokenAmount holding.purchaseLots 0 0 0).2.2.2
              totalQuantity :=
                holding.totalQuantity -
                  (fifoConsume swap.tokenAmount holding.purchaseLots 0 0 0).2.1
              averageCostPerUnit :=
                if 0 < holding.totalQuantity -
                    (fifoConsume swap.tokenAmount holding.purchaseLots 0 0 0).2.1 then
                  lotsCost (fifoConsume swap.tokenAmount holding.purchaseLots 0 0 0).2.2.2 /
                    (holding.totalQuantity -
                      (fifoConsume swap.tokenAmount holding.purchaseLots 0 0 0).2.1)
                else 0 } := rfl

theorem handleNormalSell_counters (st : EngineState) (swap : Swap) (holding : Holding) :
    (handleNormalSell st swap holding).oversellCount = st.oversellCount ∧
    (handleNormalSell st swap holding).zeroProfit = st.zeroProfit ∧
    (handleNormalSell st swap holding).buyCount = st.buyCount ∧
    (handleNormalSell st swap holding).sellCount = st.sellCount ∧
    (handleNormalSell st swap holding).totalBuyVolume = st.totalBuyVolume ∧
    (handleNormalSell st swap holding).totalSellVolume = st.totalSellVolume :=
  ⟨rfl, rfl, rfl, rfl, rfl, rfl⟩

/-- The oversell-portion `ClosedTrade` of `handlePartialOversell`. -/
theorem handlePartialOversell_eq (st : EngineState) (swap : Swap) (holding : Holding) :
    handlePartialOversell st swap holding =
      (fun st₁ =>
        { st₁ with
            closedTrades := st₁.closedTrades ++
              [{ tokenMint := swap.tokenMint
                 totalCostBasisInSol := 0
                 totalProceedsInSol :=
                   swap.solAmount * ((swap.tokenAmount - holding.totalQuantity) / swap.tokenAmount)
                 realizedPnLInSol := 0
                 realizedPnLPercent := 0
                 holdingDurationSeconds := 0
                 buyTimestamp := swap.timestamp
                 sellTimestamp := swap.timestamp
                 quantity := swap.tokenAmount - holding.totalQuantity }]
            oversellCount := st₁.oversellCount + 1 })
      (if eps < holding.totalQuantity then
        handleNormalSell st
          { swap with
              tokenAmount := holding.totalQuantity
              solAmount := swap.solAmount * (holding.totalQuantity / swap.tokenAmount)
              pricePerToken :=
                swap.solAmount * (holding.totalQuantity / swap.tokenAmount) /
                  holding.totalQuantity }
          holding
       else st) := rfl

/-! ## Invariant preservation along a processing run -/

theorem processBuyEnhanced_eq (st : EngineState) (swap : Swap) :
    processBuyEnhanced st swap =
      { st with holdings := setHolding st.holdings (buyUpdatedHolding st swap) } := rfl

theorem handleMissingBuy_inv {st : EngineState} {swap : Swap}
    (hinv : StateInv st) (hq : 0 ≤ swap.tokenAmount) :
    StateInv (handleMissingBuy st swap) := by
  refine ⟨hinv.1, ?_⟩
  intro t ht
  unfold handleMissingBuy at ht
  simp only at ht
  rcases List.mem_append.mp ht with h1 | h2
  · exact hinv.2 t h1
  · simp at h2
    rw [h2]
    exact hq

theorem handleNormalSell_inv {st : EngineState} {swap : Swap} {holding : Holding}
    (hinv : StateInv st)
    (hget : getHolding st.holdings swap.tokenMint = some holding) :
    StateInv (handleNormalSell st swap holding) := by
  have hmem : holding ∈ st.holdings := (getHolding_eq_some hget).2
  have hh := hinv.1.1 holding hmem
  have hpos : ∀ l ∈ holding.purchaseLots, 0 < l.quantity := hh.2.2
  have hbounds := fifoConsume_bounds holding.purchaseLots swap.tokenAmount 0 0 0 hpos
  have hsold0 : 0 ≤ (fifoConsume swap.tokenAmount holding.purchaseLots 0 0 0).2.1 :=
    hbounds.1
  have hq' : 0 ≤ lotsQty (fifoConsume swap.tokenAmount holding.purchaseLots 0 0 0).2.2.2 :=
    lotsQty_nonneg (fun l hl => le_of_lt (hbounds.2.2 l hl))
  constructor
  · rw [handleNormalSell_holdings]
    by_cases hdel : holding.totalQuantity -
        (fifoConsume swap.tokenAmount holding.purchaseLots 0 0 0).2.1 < eps
    · rw [if_pos hdel]
      refine ⟨?_, nodup_keys_delete _ hinv.1.2⟩
      intro h' hmem'
      exact hinv.1.1 h' (mem_deleteHolding hmem')
    · rw [if_neg hdel]
      refine ⟨?_, nodup_keys_set _ hinv.1.2⟩
      intro h' hmem'
      rcases mem_setHolding hmem' with h1 | h2
      · rw [h1]
        refine ⟨?_, ?_, ?_⟩
        · show (0 : ℚ) ≤ holding.totalQuantity -
            (fifoConsume swap.tokenAmount holding.purchaseLots 0 0 0).2.1
          have := eps_pos
          linarith [le_of_not_lt hdel]
        · show lotsQty (fifoConsume swap.tokenAmount holding.purchaseLots 0 0 0).2.2.2 ≤
            holding.totalQuantity -
              (fifoConsume swap.tokenAmount holding.purchaseLots 0 0 0).2.1
          have h2 := hbounds.2.1
          have h3 := hh.2.1
          linarith
        · exact hbounds.2.2
      · exact hinv.1.1 h' h2
  · rw [handleNormalSell_closedTrades]
    intro t ht
    rcases List.mem_append.mp ht with h1 | h2
    · exact hinv.2 t h1
    · simp at h2
      rw [h2]
      exact hsold0

theorem handlePartialOversell_inv {st : EngineState} {swap : Swap} {holding : Holding}
    (hinv : StateInv st)
    (hget : getHolding st.holdings swap.tokenMint = some holding)
    (hreq : holding.totalQuantity ≤ swap.tokenAmount) :
    StateInv (handlePartialOversell st swap holding) := by
  rw [handlePartialOversell_eq]
  have hst₁ : StateInv (if eps < holding.totalQuantity then
      handleNormalSell st
        { swap with
            tokenAmount := holding.totalQuantity
            solAmount := swap.solAmount * (holding.totalQuantity / swap.tokenAmount)
            pricePerToken :=
              swap.solAmount * (holding.totalQuantity / swap.tokenAmount) /
                holding.totalQuantity } holding
    else st) := by
    by_cases hc : eps < holding.totalQuantity
    · rw [if_pos hc]
      exact handleNormalSell_inv hinv hget
    · rw [if_neg hc]
      exact hinv
  refine ⟨hst₁.1, ?_⟩
  intro t ht
  simp only at ht
  rcases List.mem_append.mp ht with h1 | h2
  · exact hst₁.2 t h1
  · simp at h2
    rw [h2]
    show (0 : ℚ) ≤ swap.tokenAmount - holding.totalQuantity
    linarith

theorem processBuyEnhanced_inv {st : EngineState} {swap : Swap}
    (hinv : StateInv st) (hq : 0 < swap.tokenAmount) :
    StateInv (processBuyEnhanced st swap) := by
  rw [processBuyEnhanced_eq]
  have hold : 0 ≤ ((getHolding st.holdings swap.tokenMint).getD
        { tokenMint := swap.tokenMint, purchaseLots := [], totalQuantity := 0
          averageCostPerUnit := 0 }).totalQuantity ∧
      lotsQty ((getHolding st.holdings swap.tokenMint).getD
        { tokenMint := swap.tokenMint, purchaseLots := [], totalQuantity := 0
          averageCostPerUnit := 0 }).purchaseLots ≤
        ((getHolding st.holdings swap.tokenMint).getD
        { tokenMint := swap.tokenMint, purchaseLots := [], totalQuantity := 0
          averageCostPerUnit := 0 }).totalQuantity ∧
      ∀ l ∈ ((getHolding st.holdings swap.tokenMint).getD
        { tokenMint := swap.tokenMint, purchaseLots := [], totalQuantity := 0
          averageCostPerUnit := 0 }).purchaseLots, 0 < l.quantity := by
    rcases hcase : getHolding st.holdings swap.tokenMint with _ | h₀
    · simp [lotsQty_nil]
    · simp only [Option.getD_some]
      exact hinv.1.1 h₀ (getHolding_eq_some hcase).2
  constructor
  · refine ⟨?_, nodup_keys_set _ hinv.1.2⟩
    intro h' hmem'
    rcases mem_setHolding hmem' with h1 | h2
    · rw [h1]
      unfold buyUpdatedHolding
      refine ⟨?_, ?_, ?_⟩
      · show (0 : ℚ) ≤ _ + _
        simp only
        linarith [hold.1]
      · show lotsQty (_ ++ _) ≤ _
        rw [lotsQty_append]
        simp only
        linarith [hold.2.1]
      · intro l hl
        simp only at hl
        rcases List.mem_append.mp hl with hl1 | hl2
        · exact hold.2.2 l hl1
        · simp at hl2
          rw [hl2]
          exact hq
    · exact hinv.1.1 h' h2
  · exact hinv.2

theorem processSellEnhanced_inv {st : EngineState} {swap : Swap}
    (hinv : StateInv st) (hq : 0 < swap.tokenAmount) :
    StateInv (processSellEnhanced st swap) := by
  rcases hcase : getHolding st.holdings swap.tokenMint with _ | h
  · rw [processSell_missing_none hcase]
    exact handleMissingBuy_inv hinv (le_of_lt hq)
  · by_cases hl : h.purchaseLots = []
    · rw [processSell_missing_empty hcase hl]
      exact handleMissingBuy_inv hinv (le_of_lt hq)
    · by_cases hov : h.totalQuantity * oversellTolerance < swap.tokenAmount
      · rw [processSell_oversell hcase hl hov]
        have h0 : 0 ≤ h.totalQuantity := (hinv.1.1 h (getHolding_eq_some hcase).2).1
        have hreq : h.totalQuantity ≤ swap.tokenAmount := by
          have : h.totalQuantity ≤ h.totalQuantity * oversellTolerance := by
            unfold oversellTolerance
            nlinarith
          linarith
        exact handlePartialOversell_inv hinv hcase hreq
      · rw [processSell_normal hcase hl hov]
        exact handleNormalSell_inv hinv hcase

theorem processSwapWithValidation_inv {st : EngineState} {swap : Swap}
    (hinv : StateInv st) (hvalid : validSwap swap = true) :
    StateInv (processSwapWithValidation st swap) := by
  have hq : 0 < swap.tokenAmount := by
    unfold validSwap at hvalid
    simp only [Bool.and_eq_true, decide_eq_true_eq] at hvalid
    exact hvalid.1.1.2
  unfold processSwapWithValidation
  rcases hdir : swap.direction with _ | _
  · simp only
    have h' := processBuyEnhanced_inv hinv hq
    exact ⟨h'.1, h'.2⟩
  · simp only
    have h' := processSellEnhanced_inv hinv hq
    exact ⟨h'.1, h'.2⟩

theorem run_inv :
    ∀ (L : List Swap) (st : EngineState), (∀ s ∈ L, validSwap s = true) → StateInv st →
      StateInv (L.foldl processSwapWithValidation st)
  | [], st, _, hinv => hinv
  | s :: rest, st, hvalid, hinv => by
    rw [List.foldl_cons]
    exact run_inv rest _ (fun x hx => hvalid x (List.mem_cons_of_mem s hx))
      (processSwapWithValidation_inv hinv (hvalid s (List.mem_cons_self _ _)))

theorem initState_inv : StateInv initState := by
  constructor
  · exact ⟨fun h hm => absurd hm (List.not_mem_nil h), by simp [initState]⟩
  · intro t ht
    exact absurd ht (List.not_mem_nil t)

/-! ## Cost-basis conservation machinery -/

theorem closedCostOf_append (t₁ t₂ : List ClosedTrade) (mint : String) :
    closedCostOf (t₁ ++ t₂) mint = closedCostOf t₁ mint + closedCostOf t₂ mint := by
  unfold closedCostOf
  rw [List.filter_append, List.map_append, List.sum_append]

theorem closedCostOf_single (t : ClosedTrade) (mint : String) :
    closedCostOf [t] mint = if t.tokenMint = mint then t.totalCostBasisInSol else 0 := by
  unfold closedCostOf
  by_cases hk : t.tokenMint = mint
  · have hb : (t.tokenMint == mint) = true := by simpa using hk
    simp [List.filter, hb, hk]
  · have hb : (t.tokenMint == mint) = false := by simpa using hk
    simp [List.filter, hb, hk]

theorem buysCostOf_nil (mint : String) : buysCostOf [] mint = 0 := rfl

theorem buysCostOf_cons (s : Swap) (L : List Swap) (mint : String) :
    buysCostOf (s :: L) mint =
      (if s.tokenMint = mint ∧ s.direction = Direction.buy then
        s.tokenAmount * s.pricePerToken else 0) + buysCostOf L mint := by
  unfold buysCostOf
  rw [List.filter_cons]
  by_cases hc : (s.tokenMint == mint && decide (s.direction = Direction.buy)) = true
  · rw [if_pos hc]
    have hc' : s.tokenMint = mint ∧ s.direction = Direction.buy := by
      simp only [Bool.and_eq_true, beq_iff_eq, decide_eq_true_eq] at hc
      exact hc
    rw [if_pos hc']
    simp
  · rw [if_neg hc]
    have hc' : ¬ (s.tokenMint = mint ∧ s.direction = Direction.buy) := by
      intro hcc
      apply hc
      simp only [Bool.and_eq_true, beq_iff_eq, decide_eq_true_eq]
      exact hcc
    rw [if_neg hc']
    simp

theorem buysCostOf_perm {L₁ L₂ : List Swap} (hperm : L₁.Perm L₂) (mint : String) :
    buysCostOf L₁ mint = buysCostOf L₂ mint :=
  ((hperm.filter _).map _).sum_eq

theorem holdingsCostOf_nil (mint : String) : holdingsCostOf [] mint = 0 := rfl

theorem holdingsCostOf_cons (h : Holding) (hs : List Holding) (mint : String) :
    holdingsCostOf (h :: hs) mint =
      (if h.tokenMint = mint then lotsCost h.purchaseLots else 0) + holdingsCostOf hs mint := by
  unfold holdingsCostOf
  rw [List.filter_cons]
  by_cases hc : (h.tokenMint == mint) = true
  · rw [if_pos hc, if_pos (by simpa using hc : h.tokenMint = mint)]
    simp
  · rw [if_neg hc, if_neg (by simpa using hc : ¬ h.tokenMint = mint)]
    simp

theorem cleanHolding_tokenMint (h : Holding) : (cleanHolding h).tokenMint = h.tokenMint := by
  unfold cleanHolding
  dsimp only
  split_ifs <;> rfl

theorem cleanHolding_purchaseLots (h : Holding) :
    (cleanHolding h).purchaseLots = h.purchaseLots := by
  unfold cleanHolding
  dsimp only
  split_ifs <;> rfl

theorem cleanHolding_totalQuantity (h : Holding) :
    (cleanHolding h).totalQuantity = h.totalQuantity ∨
    (cleanHolding h).totalQuantity = lotsQty h.purchaseLots := by
  unfold cleanHolding
  dsimp only
  split_ifs <;> simp

theorem holdingsCostOf_clean_cons (x : Holding) (xs : List Holding) (mint : String) :
    holdingsCostOf (validateAndCleanHoldings (x :: xs)) mint =
      (if eps < x.totalQuantity ∧ x.tokenMint = mint then lotsCost x.purchaseLots else 0) +
        holdingsCostOf (validateAndCleanHoldings xs) mint := by
  unfold validateAndCleanHoldings
  rw [List.filterMap_cons]
  by_cases hc : eps < x.totalQuantity
  · rw [if_pos hc]
    simp only
    rw [holdingsCostOf_cons, cleanHolding_tokenMint, cleanHolding_purchaseLots]
    by_cases hk : x.tokenMint = mint
    · rw [if_pos hk, if_pos ⟨hc, hk⟩]
    · rw [if_neg hk, if_neg (fun hck => hk hck.2)]
  · rw [if_neg hc]
    simp only
    rw [if_neg (fun hck => hc hck.1)]
    ring_nf

theorem holdingsCostOf_clean :
    ∀ (hs : List Holding), (hs.map Holding.tokenMint).Nodup → ∀ (mint : String),
      holdingsCostOf (validateAndCleanHoldings hs) mint =
        (match getHolding hs mint with
         | some h => if eps < h.totalQuantity then lotsCost h.purchaseLots else 0
         | none => 0)
  | [], _, mint => rfl
  | x :: xs, hnd, mint => by
    rw [List.map_cons, List.nodup_cons] at hnd
    rw [holdingsCostOf_clean_cons]
    by_cases hk : x.tokenMint = mint
    · have hget : getHolding (x :: xs) mint = some x := by
        unfold getHolding
        simp [List.find?, hk]
      rw [hget]
      have hnone : getHolding xs mint = none := by
        rw [getHolding_none_iff]
        intro h hm he
        apply hnd.1
        rw [hk, ← he]
        exact List.mem_map.mpr ⟨h, hm, rfl⟩
      rw [holdingsCostOf_clean xs hnd.2 mint, hnone]
      show (if eps < x.totalQuantity ∧ x.tokenMint = mint then lotsCost x.purchaseLots
        else 0) + 0 = if eps < x.totalQuantity then lotsCost x.purchaseLots else 0
      by_cases hc : eps < x.totalQuantity
      · rw [if_pos ⟨hc, hk⟩, if_pos hc]
        ring
      · rw [if_neg (fun hch => hc hch.1), if_neg hc]
        ring
    · have hb : (x.tokenMint == mint) = false := by simpa using hk
      have hget : getHolding (x :: xs) mint = getHolding xs mint := by
        unfold getHolding
        simp [List.find?, hb]
      rw [hget, if_neg (fun hch => hk hch.2),
        holdingsCostOf_clean xs hnd.2 mint]
      ring

theorem buyUpdatedHolding_tokenMint (st : EngineState) (swap : Swap) :
    (buyUpdatedHolding st swap).tokenMint = swap.tokenMint := by
  unfold buyUpdatedHolding
  rcases hcase : getHolding st.holdings swap.tokenMint with _ | h₀
  · simp
  · simp only [Option.getD_some]
    exact (getHolding_eq_some hcase).1

theorem buyUpdatedHolding_lots (st : EngineState) (swap : Swap) :
    lotsCost (buyUpdatedHolding st swap).purchaseLots =
      lotsCost ((getHolding st.holdings swap.tokenMint).getD
        { tokenMint := swap.tokenMint, purchaseLots := [], totalQuantity := 0
          averageCostPerUnit := 0 }).purchaseLots +
      swap.tokenAmount * swap.pricePerToken := by
  unfold buyUpdatedHolding
  simp only
  rw [lotsCost_append]

theorem mintHoldingCost_set_other {hs : List Holding} {h : Holding} {mint : String}
    (hne : h.tokenMint ≠ mint) :
    mintHoldingCost (setHolding hs h) mint = mintHoldingCost hs mint := by
  unfold mintHoldingCost
  rw [getHolding_set, if_neg hne]

theorem mintHoldingCost_delete_other {hs : List Holding} {mint mint' : String}
    (hne : mint' ≠ mint) :
    mintHoldingCost (deleteHolding hs mint) mint' = mintHoldingCost hs mint' := by
  unfold mintHoldingCost
  rw [getHolding_delete, if_neg hne]

theorem handleNormalSell_cost_other {st : EngineState} {swap : Swap} {holding : Holding}
    {mint : String} (hne : swap.tokenMint ≠ mint)
    (hkey : holding.tokenMint = swap.tokenMint) :
    mintHoldingCost (handleNormalSell st swap holding).holdings mint =
      mintHoldingCost st.holdings mint ∧
    closedCostOf (handleNormalSell st swap holding).closedTrades mint =
      closedCostOf st.closedTrades mint := by
  constructor
  · rw [handleNormalSell_holdings]
    by_cases hdel : holding.totalQuantity -
        (fifoConsume swap.tokenAmount holding.purchaseLots 0 0 0).2.1 < eps
    · rw [if_pos hdel]
      exact mintHoldingCost_delete_other (fun he => hne he.symm)
    · rw [if_neg hdel]
      exact mintHoldingCost_set_other (by simpa [hkey] using hne)
  · rw [handleNormalSell_closedTrades, closedCostOf_append, closedCostOf_single,
      if_neg hne]
    ring

theorem handleMissingBuy_cost_other {st : EngineState} {swap : Swap} {mint : String}
    (hne : swap.tokenMint ≠ mint) :
    mintHoldingCost (handleMissingBuy st swap).holdings mint =
      mintHoldingCost st.holdings mint ∧
    closedCostOf (handleMissingBuy st swap).closedTrades mint =
      closedCostOf st.closedTrades mint := by
  constructor
  · rfl
  · show closedCostOf (st.closedTrades ++ [_]) mint = _
    rw [closedCostOf_append, closedCostOf_single]
    simp only
    rw [if_neg hne]
    ring

theorem step_cost_other {st : EngineState} {swap : Swap} {mint : String}
    (hne : swap.tokenMint ≠ mint) :
    mintHoldingCost (processSwapWithValidation st swap).holdings mint =
      mintHoldingCost st.holdings mint ∧
    closedCostOf (processSwapWithValidation st swap).closedTrades mint =
      closedCostOf st.closedTrades mint := by
  unfold processSwapWithValidation
  rcases swap.direction with _ | _
  · simp only
    constructor
    · show mintHoldingCost (processBuyEnhanced st swap).holdings mint = _
      rw [processBuyEnhanced_eq]
      exact mintHoldingCost_set_other (by rw [buyUpdatedHolding_tokenMint]; exact hne)
    · rfl
  · simp only
    show mintHoldingCost (processSellEnhanced st swap).holdings mint = _ ∧
      closedCostOf (processSellEnhanced st swap).closedTrades mint = _
    rcases hget : getHolding st.holdings swap.tokenMint with _ | h
    · rw [processSell_missing_none hget]
      exact handleMissingBuy_cost_other hne
    · have hkey : h.tokenMint = swap.tokenMint := (getHolding_eq_some hget).1
      by_cases hl : h.purchaseLots = []
      · rw [processSell_missing_empty hget hl]
        exact handleMissingBuy_cost_other hne
      · by_cases hov : h.totalQuantity * oversellTolerance < swap.tokenAmount
        · rw [processSell_oversell hget hl hov, handlePartialOversell_eq]
          by_cases hc : eps < h.totalQuantity
          · rw [if_pos hc]
            have hinner := @handleNormalSell_cost_other st
              { swap with
                tokenAmount := h.totalQuantity
                solAmount := swap.solAmount * (h.totalQuantity / swap.tokenAmount)
                pricePerToken :=
                  swap.solAmount * (h.totalQuantity / swap.tokenAmount) / h.totalQuantity }
              h mint hne hkey
            constructor
            · exact hinner.1
            · show closedCostOf (_ ++ [_]) mint = _
              rw [closedCostOf_append, closedCostOf_single]
              simp only
              rw [if_neg hne]
              rw [hinner.2]
              ring
          · rw [if_neg hc]
            constructor
            · rfl
            · show closedCostOf (st.closedTrades ++ [_]) mint = _
              rw [closedCostOf_append, closedCostOf_single]
              simp only
              rw [if_neg hne]
              ring
        · rw [processSell_normal hget hl hov]
          exact handleNormalSell_cost_other hne hkey

theorem mintHoldingCost_some {hs : List Holding} {mint : String} {h : Holding}
    (hget : getHolding hs mint = some h) :
    mintHoldingCost hs mint = lotsCost h.purchaseLots := by
  unfold mintHoldingCost
  rw [hget]

theorem mintHoldingCost_none {hs : List Holding} {mint : String}
    (hget : getHolding hs mint = none) :
    mintHoldingCost hs mint = 0 := by
  unfold mintHoldingCost
  rw [hget]

theorem mintHoldingCost_set_self {hs : List Holding} {h : Holding} {mint : String}
    (hk : h.tokenMint = mint) :
    mintHoldingCost (setHolding hs h) mint = lotsCost h.purchaseLots := by
  unfold mintHoldingCost
  rw [getHolding_set, if_pos hk]

theorem mintHoldingCost_delete_self {hs : List Holding} {mint mint' : String}
    (hk : mint' = mint) :
    mintHoldingCost (deleteHolding hs mint) mint' = 0 := by
  unfold mintHoldingCost
  rw [getHolding_delete, if_pos hk]

theorem conserve_step {st : EngineState} {swap : Swap} {mint : String}
    (hok : sellStepOK mint st swap = true) :
    mintHoldingCost (processSwapWithValidation st swap).holdings mint +
      closedCostOf (processSwapWithValidation st swap).closedTrades mint =
    mintHoldingCost st.holdings mint + closedCostOf st.closedTrades mint +
      (if swap.tokenMint = mint ∧ swap.direction = Direction.buy then
        swap.tokenAmount * swap.pricePerToken else 0) := by
  by_cases hm : swap.tokenMint = mint
  · rcases hdir : swap.direction with _ | _
    · -- buy of the tracked mint
      rw [if_pos ⟨hm, rfl⟩]
      have hstep : (processSwapWithValidation st swap).holdings =
            (processBuyEnhanced st swap).holdings ∧
          (processSwapWithValidation st swap).closedTrades =
            (processBuyEnhanced st swap).closedTrades := by
        unfold processSwapWithValidation
        rw [hdir]
        exact ⟨rfl, rfl⟩
      rw [hstep.1, hstep.2, processBuyEnhanced_eq]
      show mintHoldingCost (setHolding st.holdings (buyUpdatedHolding st swap)) mint +
        closedCostOf st.closedTrades mint = _
      rw [mintHoldingCost_set_self (by rw [buyUpdatedHolding_tokenMint]; exact hm),
        buyUpdatedHolding_lots]
      rcases hget : getHolding st.holdings swap.tokenMint with _ | h₀
      · simp only [Option.getD_none]
        rw [mintHoldingCost_none (by rw [← hm]; exact hget)]
        show lotsCost [] + swap.tokenAmount * swap.pricePerToken +
          closedCostOf st.closedTrades mint = _
        rw [lotsCost_nil]
        ring
      · simp only [Option.getD_some]
        rw [mintHoldingCost_some (by rw [← hm]; exact hget)]
        ring
    · -- sell of the tracked mint
      rw [if_neg (fun hc => Direction.noConfusion hc.2)]
      have hstep : (processSwapWithValidation st swap).holdings =
            (processSellEnhanced st swap).holdings ∧
          (processSwapWithValidation st swap).closedTrades =
            (processSellEnhanced st swap).closedTrades := by
        unfold processSwapWithValidation
        rw [hdir]
        exact ⟨rfl, rfl⟩
      rw [hstep.1, hstep.2]
      have hokm : (if swap.tokenMint == mint && decide (swap.direction = Direction.sell)
          then (match getHolding st.holdings mint with
            | none => true
            | some h =>
              if h.purchaseLots = [] then true
              else if h.totalQuantity * oversellTolerance < swap.tokenAmount then false
              else
                consumeExactB swap.tokenAmount h.purchaseLots &&
                  (decide (eps ≤ h.totalQuantity -
                    (fifoConsume swap.tokenAmount h.purchaseLots 0 0 0).2.1) ||
                   decide ((fifoConsume swap.tokenAmount h.purchaseLots 0 0 0).2.2.2
                     = ([] : List Lot))))
          else true) = true := hok
      have hcond : (swap.tokenMint == mint && decide (swap.direction = Direction.sell))
          = true := by
        simp [hm, hdir]
      rw [if_pos hcond] at hokm
      rcases hget : getHolding st.holdings swap.tokenMint with _ | h
      · -- no holding: zero-cost missing-buy trade
        rw [processSell_missing_none hget]
        show mintHoldingCost st.holdings mint +
          closedCostOf (st.closedTrades ++ [_]) mint = _
        rw [closedCostOf_append, closedCostOf_single]
        simp only
        rw [if_pos hm]
        ring
      · have hkey : h.tokenMint = swap.tokenMint := (getHolding_eq_some hget).1
        have hgetm : getHolding st.holdings mint = some h := by rw [← hm]; exact hget
        rw [hgetm] at hokm
        replace hokm : (if h.purchaseLots = [] then true
            else if h.totalQuantity * oversellTolerance < swap.tokenAmount then false
            else
              consumeExactB swap.tokenAmount h.purchaseLots &&
                (decide (eps ≤ h.totalQuantity -
                  (fifoConsume swap.tokenAmount h.purchaseLots 0 0 0).2.1) ||
                 decide ((fifoConsume swap.tokenAmount h.purchaseLots 0 0 0).2.2.2
                   = ([] : List Lot)))) = true := hokm
        by_cases hl : h.purchaseLots = []
        · rw [processSell_missing_empty hget hl]
          show mintHoldingCost st.holdings mint +
            closedCostOf (st.closedTrades ++ [_]) mint = _
          rw [closedCostOf_append, closedCostOf_single]
          simp only
          rw [if_pos hm]
          ring
        · rw [if_neg hl] at hokm
          by_cases hov : h.totalQuantity * oversellTolerance < swap.tokenAmount
          · rw [if_pos hov] at hokm
            exact absurd hokm (by simp)
          · rw [if_neg hov] at hokm
            rw [Bool.and_eq_true] at hokm
            have hex := hokm.1
            have hdisj := hokm.2
            rw [processSell_normal hget hl hov]
            have hexact := fifoConsume_exact h.purchaseLots swap.tokenAmount 0 0 0 hex
            rw [handleNormalSell_closedTrades, closedCostOf_append, closedCostOf_single]
            simp only
            rw [if_pos hm]
            rw [handleNormalSell_holdings]
            rw [mintHoldingCost_some hgetm]
            by_cases hdel : h.totalQuantity -
                (fifoConsume swap.tokenAmount h.purchaseLots 0 0 0).2.1 < eps
            · rw [if_pos hdel, mintHoldingCost_delete_self hm.symm]
              have hemp : (fifoConsume swap.tokenAmount h.purchaseLots 0 0 0).2.2.2
                  = ([] : List Lot) := by
                rcases (Bool.or_eq_true _ _).mp hdisj with h1 | h2
                · exact absurd (of_decide_eq_true h1) (not_le_of_lt hdel)
                · exact of_decide_eq_true h2
              have hc := hexact.1
              rw [hemp, lotsCost_nil] at hc
              linarith
            · have hkeym : h.tokenMint = mint := by rw [hkey]; exact hm
              rw [if_neg hdel]
              set hnew : Holding :=
                { h with
                    purchaseLots := (fifoConsume swap.tokenAmount h.purchaseLots 0 0 0).2.2.2
                    totalQuantity := h.totalQuantity -
                      (fifoConsume swap.tokenAmount h.purchaseLots 0 0 0).2.1
                    averageCostPerUnit :=
                      if 0 < h.totalQuantity -
                          (fifoConsume swap.tokenAmount h.purchaseLots 0 0 0).2.1 then
                        lotsCost (fifoConsume swap.tokenAmount h.purchaseLots 0 0 0).2.2.2 /
                          (h.totalQuantity -
                            (fifoConsume swap.tokenAmount h.purchaseLots 0 0 0).2.1)
                      else 0 } with hh
              have hknew : hnew.tokenMint = mint := by rw [hh]; exact hkeym
              rw [mintHoldingCost_set_self hknew]
              have hlots : hnew.purchaseLots =
                  (fifoConsume swap.tokenAmount h.purchaseLots 0 0 0).2.2.2 := by rw [hh]
              rw [hlots]
              have hc := hexact.1
              linarith
  · rw [if_neg (fun hc => hm hc.1)]
    have h' := @step_cost_other st swap mint hm
    rw [h'.1, h'.2]
    ring

theorem runOK_cons_eq (mint : String) (st : EngineState) (s : Swap) (rest : List Swap) :
    runOK mint st (s :: rest) =
      (sellStepOK mint st s && runOK mint (processSwapWithValidation st s) rest) := rfl

theorem conserve_run :
    ∀ (L : List Swap) (st : EngineState) (mint : String), runOK mint st L = true →
      mintHoldingCost ((L.foldl processSwapWithValidation st).holdings) mint +
        closedCostOf ((L.foldl processSwapWithValidation st).closedTrades) mint =
      mintHoldingCost st.holdings mint + closedCostOf st.closedTrades mint +
        buysCostOf L mint
  | [], st, mint, _ => by
    rw [List.foldl_nil, buysCostOf_nil]
    ring
  | s :: rest, st, mint, hok => by
    rw [runOK_cons_eq, Bool.and_eq_true] at hok
    rw [List.foldl_cons, buysCostOf_cons,
      conserve_run rest (processSwapWithValidation st s) mint hok.2,
      conserve_step hok.1]
    ring

/-! ## Lemmas about the classifier -/

theorem getChange_set (m : List (String × ℚ)) (k : String) (v : ℚ) (k' : String) :
    getChange (setChange m k v) k' = if k = k' then v else getChange m k' := by
  induction m with
  | nil =>
    by_cases hk : k = k'
    · simp [setChange, getChange, List.find?, hk]
    · have hb : (k == k') = false := by simpa using hk
      simp [setChange, getChange, List.find?, hb, hk]
  | cons p ps ih =>
    unfold setChange
    by_cases hp : (p.1 == k) = true
    · have hp' : p.1 = k := by simpa using hp
      rw [if_pos hp]
      by_cases hk : k = k'
      · simp [getChange, List.find?, hk]
      · have hb : (k == k') = false := by simpa using hk
        have hb' : (p.1 == k') = false := by simp [hp']; exact hk
        rw [if_neg hk]
        unfold getChange
        simp only [List.find?, hb, hb']
    · have hp' : p.1 ≠ k := by simpa using hp
      rw [if_neg hp]
      unfold getChange at ih ⊢
      simp only [List.find?]
      by_cases hpk : (p.1 == k') = true
      · have hk : ¬ k = k' := by
          intro he
          apply hp'
          rw [he]
          simpa using hpk
        rw [if_neg hk]
        simp [hpk]
      · have hb : (p.1 == k') = false := by simpa using hpk
        rw [hb]
        exact ih

theorem tokenChangeStep_getChange (wallet : String) (mp : List (String × ℚ))
    (t : TokenTransfer) (m : String) :
    getChange (tokenChangeStep wallet mp t) m =
      getChange mp m + transferContribution wallet t m := by
  unfold tokenChangeStep
  by_cases hw : isSolOrWsol t.mint = true
  · rw [if_pos hw]
    unfold transferContribution
    rw [if_neg (fun hc => hc.2 hw)]
    ring
  · rw [if_neg hw]
    rw [getChange_set]
    by_cases hm : t.mint = m
    · have hcond : t.mint = m ∧ ¬ isSolOrWsol t.mint = true := ⟨hm, hw⟩
      unfold transferContribution normalizeTokenAmount
      rw [if_pos hcond, if_pos hm, hm]
      by_cases hfrom : (t.fromUserAccount == wallet) = true
      · have hfrom' : t.fromUserAccount = wallet := by simpa using hfrom
        rw [if_pos hfrom, if_pos hfrom']
      · have hfrom' : ¬ t.fromUserAccount = wallet := by simpa using hfrom
        rw [if_neg hfrom, if_neg hfrom']
        by_cases hto : (t.toUserAccount == wallet) = true
        · have hto' : t.toUserAccount = wallet := by simpa using hto
          rw [if_pos hto, if_pos hto']
        · have hto' : ¬ t.toUserAccount = wallet := by simpa using hto
          rw [if_neg hto, if_neg hto']
    · rw [if_neg hm]
      unfold transferContribution
      rw [if_neg (fun hc => hm hc.1)]
      ring

theorem getChange_fold :
    ∀ (ts : List TokenTransfer) (wallet : String) (mp : List (String × ℚ)) (m : String),
      getChange (ts.foldl (tokenChangeStep wallet) mp) m =
        getChange mp m + (ts.map (fun t => transferContribution wallet t m)).sum
  | [], wallet, mp, m => by simp
  | t :: ts, wallet, mp, m => by
    rw [List.foldl_cons, getChange_fold ts wallet _ m, List.map_cons, List.sum_cons,
      tokenChangeStep_getChange]
    ring

theorem getChange_tokenChanges (tx : ParsedTransaction) (wallet m : String) :
    getChange (tokenChanges tx wallet) m = netTokenDelta tx wallet m := by
  unfold tokenChanges netTokenDelta
  rw [getChange_fold]
  show getChange [] m + _ = _
  unfold getChange
  simp [List.find?]

theorem setChange_keys (mp : List (String × ℚ)) (k : String) (v : ℚ) :
    (setChange mp k v).map Prod.fst =
      if k ∈ mp.map Prod.fst then mp.map Prod.fst else mp.map Prod.fst ++ [k] := by
  induction mp with
  | nil => simp [setChange]
  | cons p ps ih =>
    unfold setChange
    by_cases hp : (p.1 == k) = true
    · have hp' : p.1 = k := by simpa using hp
      rw [if_pos hp]
      have hmem : k ∈ (p :: ps).map Prod.fst := by simp [hp'.symm]
      rw [if_pos hmem]
      simp [hp']
    · have hp' : p.1 ≠ k := by simpa using hp
      rw [if_neg hp]
      by_cases hmem : k ∈ ps.map Prod.fst
      · have hmem' : k ∈ (p :: ps).map Prod.fst := by simp [hmem]
        rw [if_pos hmem']
        simp only [List.map_cons]
        rw [ih, if_pos hmem]
      · have hmem' : k ∉ (p :: ps).map Prod.fst := by
          simp [hmem]
          exact fun he => hp' he.symm
        rw [if_neg hmem']
        simp only [List.map_cons, List.cons_append]
        rw [ih, if_neg hmem]

theorem nodup_keys_setChange {mp : List (String × ℚ)} (k : String) (v : ℚ)
    (hnd : (mp.map Prod.fst).Nodup) : ((setChange mp k v).map Prod.fst).Nodup := by
  rw [setChange_keys]
  by_cases hmem : k ∈ mp.map Prod.fst
  · rw [if_pos hmem]; exact hnd
  · rw [if_neg hmem]
    rw [List.nodup_append]
    exact ⟨hnd, List.nodup_singleton _, by simpa using hmem⟩

theorem tokenChanges_fold_nodup (wallet : String) :
    ∀ (ts : List TokenTransfer) (mp : List (String × ℚ)),
      (mp.map Prod.fst).Nodup →
      (((ts.foldl (tokenChangeStep wallet) mp)).map Prod.fst).Nodup
  | [], mp, hnd => hnd
  | t :: ts, mp, hnd => by
    rw [List.foldl_cons]
    apply tokenChanges_fold_nodup wallet ts
    unfold tokenChangeStep
    by_cases hw : isSolOrWsol t.mint = true
    · rw [if_pos hw]; exact hnd
    · rw [if_neg hw]
      exact nodup_keys_setChange _ _ hnd

theorem tokenChanges_nodup (tx : ParsedTransaction) (wallet : String) :
    ((tokenChanges tx wallet).map Prod.fst).Nodup :=
  tokenChanges_fold_nodup wallet tx.tokenTransfers [] (by simp)

theorem getChange_of_mem :
    ∀ {mp : List (String × ℚ)} {k : String} {v : ℚ}, (mp.map Prod.fst).Nodup →
      (k, v) ∈ mp → getChange mp k = v := by
  intro mp
  induction mp with
  | nil =>
    intro k v _ hmem
    exact absurd hmem (List.not_mem_nil _)
  | cons p ps ih =>
    intro k v hnd hmem
    rw [List.map_cons, List.nodup_cons] at hnd
    rcases List.mem_cons.mp hmem with h1 | h2
    · rw [← h1]
      unfold getChange
      simp [List.find?]
    · have hk : p.1 ≠ k := by
        intro he
        apply hnd.1
        rw [he]
        exact List.mem_map.mpr ⟨(k, v), h2, rfl⟩
      have hb : (p.1 == k) = false := by simpa using hk
      unfold getChange at ih ⊢
      simp only [List.find?, hb]
      exact ih hnd.2 h2

theorem dominant_fold (f : String × ℚ → String × ℚ → String × ℚ)
    (hf : f = fun a b => if |b.2| < |a.2| then a else b) :
    ∀ (rest : List (String × ℚ)) (acc : String × ℚ),
      (rest.foldl f acc = acc ∨ rest.foldl f acc ∈ rest) ∧
      |acc.2| ≤ |(rest.foldl f acc).2| ∧
      ∀ p ∈ rest, |p.2| ≤ |(rest.foldl f acc).2|
  | [], acc => by
    refine ⟨Or.inl rfl, le_refl _, ?_⟩
    intro p hp
    exact absurd hp (List.not_mem_nil p)
  | b :: rest, acc => by
    rw [List.foldl_cons]
    have ih := dominant_fold f hf rest (f acc b)
    have hstep : f acc b = acc ∨ f acc b = b := by
      simp only [hf]
      by_cases hc : |b.2| < |acc.2|
      · exact Or.inl (if_pos hc)
      · exact Or.inr (if_neg hc)
    have hacc : |acc.2| ≤ |(f acc b).2| := by
      simp only [hf]
      by_cases hc : |b.2| < |acc.2|
      · rw [if_pos hc]
      · rw [if_neg hc]
        exact le_of_not_lt hc
    have hb : |b.2| ≤ |(f acc b).2| := by
      simp only [hf]
      by_cases hc : |b.2| < |acc.2|
      · rw [if_pos hc]
        exact le_of_lt hc
      · rw [if_neg hc]
    refine ⟨?_, le_trans hacc ih.2.1, ?_⟩
    · rcases ih.1 with h1 | h2
      · rw [h1]
        rcases hstep with h3 | h4
        · exact Or.inl h3
        · exact Or.inr (by rw [h4]; exact List.mem_cons_self _ _)
      · exact Or.inr (List.mem_cons_of_mem b h2)
    · intro p hp
      rcases List.mem_cons.mp hp with h1 | h2
      · rw [h1]
        exact le_trans hb ih.2.1
      · exact ih.2.2 p h2

theorem dominantChange_spec {entries : List (String × ℚ)} {d : String × ℚ}
    (h : dominantChange entries = some d) :
    d ∈ entries ∧ ∀ p ∈ entries, |p.2| ≤ |d.2| := by
  match entries, h with
  | e :: rest, h =>
    have hd : rest.foldl (fun a b => if |b.2| < |a.2| then a else b) e = d := by
      have : some (rest.foldl (fun a b => if |b.2| < |a.2| then a else b) e) = some d := h
      exact Option.some.inj this
    have hspec := dominant_fold _ rfl rest e
    rw [hd] at hspec
    constructor
    · rcases hspec.1 with h1 | h2
      · rw [← h1]; exact List.mem_cons_self _ _
      · exact List.mem_cons_of_mem e h2
    · intro p hp
      rcases List.mem_cons.mp hp with h1 | h2
      · rw [h1]; exact hspec.2.1
      · exact hspec.2.2 p h2

theorem foldl_maxUpd_mono {α : Type} (cond : α → Bool) (val : α → ℚ) :
    ∀ (ts : List α) (acc : ℚ), acc ≤ ts.foldl (maxUpd cond val) acc
  | [], acc => le_refl acc
  | t :: ts, acc => by
    rw [List.foldl_cons]
    refine le_trans ?_ (foldl_maxUpd_mono cond val ts (maxUpd cond val acc t))
    unfold maxUpd
    split_ifs <;> linarith

theorem foldl_maxUpd_bound {α : Type} (cond : α → Bool) (val : α → ℚ) :
    ∀ (ts : List α) (acc : ℚ) (t : α), t ∈ ts → cond t = true →
      val t ≤ ts.foldl (maxUpd cond val) acc
  | [], _, t, ht, _ => absurd ht (List.not_mem_nil t)
  | t' :: ts, acc, t, ht, hc => by
    rw [List.foldl_cons]
    rcases List.mem_cons.mp ht with h1 | h2
    · subst h1
      refine le_trans ?_ (foldl_maxUpd_mono cond val ts (maxUpd cond val acc t))
      unfold maxUpd
      rw [if_pos hc]
      split_ifs <;> linarith
    · exact foldl_maxUpd_bound cond val ts (maxUpd cond val acc t') t h2 hc

theorem foldl_maxUpd_attain {α : Type} (cond : α → Bool) (val : α → ℚ) :
    ∀ (ts : List α) (acc : ℚ), ts.foldl (maxUpd cond val) acc = acc ∨
      ∃ t ∈ ts, cond t = true ∧ val t = ts.foldl (maxUpd cond val) acc
  | [], acc => Or.inl rfl
  | t' :: ts, acc => by
    rw [List.foldl_cons]
    rcases foldl_maxUpd_attain cond val ts (maxUpd cond val acc t') with h1 | h2
    · rw [h1]
      unfold maxUpd
      by_cases hc : cond t' = true
      · rw [if_pos hc]
        by_cases hlt : acc < val t'
        · rw [if_pos hlt]
          exact Or.inr ⟨t', List.mem_cons_self _ _, hc, rfl⟩
        · rw [if_neg hlt]
          exact Or.inl rfl
      · rw [if_neg hc]
        exact Or.inl rfl
    · rcases h2 with ⟨t, hmem, hcond, hval⟩
      exact Or.inr ⟨t, List.mem_cons_of_mem t' hmem, hcond, hval⟩

/-! ## Confidence-level characterization and engine glue lemmas -/

theorem determineConfidenceLevel_spec (score : ℚ) (issues : List DataQualityIssue) :
    (determineConfidenceLevel score issues = ConfidenceLevel.LOW ↔
      (∃ i ∈ issues, i.severity = Severity.ERROR) ∨ score < 60) ∧
    (determineConfidenceLevel score issues = ConfidenceLevel.MEDIUM ↔
      ¬ ((∃ i ∈ issues, i.severity = Severity.ERROR) ∨ score < 60) ∧
      (3 < (issues.filter (fun i => decide (i.severity = Severity.WARNING))).length ∨
        score < 80)) ∧
    (determineConfidenceLevel score issues = ConfidenceLevel.HIGH ↔
      ¬ ((∃ i ∈ issues, i.severity = Severity.ERROR) ∨ score < 60) ∧
      ¬ (3 < (issues.filter (fun i => decide (i.severity = Severity.WARNING))).length ∨
        score < 80)) := by
  unfold determineConfidenceLevel
  by_cases h1 : (issues.any (fun i => decide (i.severity = Severity.ERROR)) = true) ∨ score < 60
  · have h1' : (∃ i ∈ issues, i.severity = Severity.ERROR) ∨ score < 60 := by
      rcases h1 with ha | hb
      · left
        rcases List.any_eq_true.mp ha with ⟨i, hi, hpi⟩
        exact ⟨i, hi, of_decide_eq_true hpi⟩
      · exact Or.inr hb
    rw [if_pos h1]
    refine ⟨⟨fun _ => h1', fun _ => rfl⟩, ⟨fun he => ?_, fun hc => absurd h1' hc.1⟩,
      ⟨fun he => ?_, fun hc => absurd h1' hc.1⟩⟩
    · exact absurd he (by simp)
    · exact absurd he (by simp)
  · have h1' : ¬ ((∃ i ∈ issues, i.severity = Severity.ERROR) ∨ score < 60) := by
      intro hc
      apply h1
      rcases hc with ⟨i, hi, hsev⟩ | hb
      · exact Or.inl (List.any_eq_true.mpr ⟨i, hi, decide_eq_true hsev⟩)
      · exact Or.inr hb
    rw [if_neg h1]
    by_cases h2 : (3 < (issues.filter (fun i => decide (i.severity = Severity.WARNING))).length)
        ∨ score < 80
    · rw [if_pos h2]
      refine ⟨⟨fun he => absurd he (by simp), fun hc => absurd hc h1'⟩,
        ⟨fun _ => ⟨h1', h2⟩, fun _ => rfl⟩,
        ⟨fun he => absurd he (by simp), fun hc => absurd h2 hc.2⟩⟩
    · rw [if_neg h2]
      refine ⟨⟨fun he => absurd he (by simp), fun hc => absurd hc h1'⟩,
        ⟨fun he => absurd he (by simp), fun hc => absurd hc.2 h2⟩,
        ⟨fun _ => ⟨h1', h2⟩, fun _ => rfl⟩⟩

theorem assessDataQuality_confidence (ts : List ParsedTransaction) (ss : List Swap)
    (cts : List ClosedTrade) (ohs : List Holding) :
    (assessDataQuality ts ss cts ohs).confidenceLevel =
      determineConfidenceLevel (assessDataQuality ts ss cts ohs).overallScore
        (assessDataQuality ts ss cts ohs).issues := rfl

theorem processSwapsForPnL_closedTrades (swaps : List Swap) :
    (processSwapsForPnL swaps).closedTrades =
      ((sortByTimestamp (validateAndFilterSwaps swaps)).foldl
        processSwapWithValidation initState).closedTrades := rfl

theorem processSwapsForPnL_openHoldings (swaps : List Swap) :
    (processSwapsForPnL swaps).openHoldings =
      validateAndCleanHoldings
        (((sortByTimestamp (validateAndFilterSwaps swaps)).foldl
          processSwapWithValidation initState).holdings) := rfl

theorem mem_sorted_valid {swaps : List Swap} {s : Swap}
    (h : s ∈ sortByTimestamp (validateAndFilterSwaps swaps)) : validSwap s = true := by
  have hmem := (sortByTimestamp_perm _).mem_iff.mp h
  exact (List.mem_filter.mp hmem).2

theorem mem_clean {hs : List Holding} {y : Holding}
    (h : y ∈ validateAndCleanHoldings hs) :
    ∃ x ∈ hs, eps < x.totalQuantity ∧ y = cleanHolding x := by
  unfold validateAndCleanHoldings at h
  rcases List.mem_filterMap.mp h with ⟨x, hx, hfx⟩
  by_cases hc : eps < x.totalQuantity
  · rw [if_pos hc] at hfx
    exact ⟨x, hx, hc, (Option.some.inj hfx).symm⟩
  · rw [if_neg hc] at hfx
    exact absurd hfx (by simp)

/-- Every `ClosedTrade` emitted by a sell whose amount exceeds the dust
epsilon has strictly positive quantity. -/
theorem sell_trades_pos {st : EngineState} {swap : Swap}
    (hinv : StateInv st) (heps : eps < swap.tokenAmount) :
    ∀ t ∈ (processSellEnhanced st swap).closedTrades,
      t ∈ st.closedTrades ∨ 0 < t.quantity := by
  have hq : 0 < swap.tokenAmount := lt_trans eps_pos heps
  rcases hget : getHolding st.holdings swap.tokenMint with _ | h
  · rw [processSell_missing_none hget]
    intro t ht
    unfold handleMissingBuy at ht
    simp only at ht
    rcases List.mem_append.mp ht with h1 | h2
    · exact Or.inl h1
    · simp at h2
      rw [h2]
      exact Or.inr hq
  · have hmem : h ∈ st.holdings := (getHolding_eq_some hget).2
    have hh := hinv.1.1 h hmem
    by_cases hl : h.purchaseLots = []
    · rw [processSell_missing_empty hget hl]
      intro t ht
      unfold handleMissingBuy at ht
      simp only at ht
      rcases List.mem_append.mp ht with h1 | h2
      · exact Or.inl h1
      · simp at h2
        rw [h2]
        exact Or.inr hq
    · by_cases hov : h.totalQuantity * oversellTolerance < swap.tokenAmount
      · rw [processSell_oversell hget hl hov, handlePartialOversell_eq]
        have hqlt : h.totalQuantity < swap.tokenAmount := by
          have h0 : 0 ≤ h.totalQuantity := hh.1
          have : h.totalQuantity ≤ h.totalQuantity * oversellTolerance := by
            unfold oversellTolerance
            nlinarith
          linarith
        intro t ht
        simp only at ht
        rcases List.mem_append.mp ht with h1 | h2
        · -- trades of the (possibly skipped) matched portion
          by_cases hc : eps < h.totalQuantity
          · rw [if_pos hc] at h1
            rw [handleNormalSell_closedTrades] at h1
            rcases List.mem_append.mp h1 with h3 | h4
            · exact Or.inl h3
            · simp at h4
              rw [h4]
              right
              show (0 : ℚ) < (fifoConsume h.totalQuantity h.purchaseLots 0 0 0).2.1
              obtain ⟨l, rest, hlots⟩ := List.exists_cons_of_ne_nil hl
              rw [hlots] at hh ⊢
              exact fifoConsume_sold_pos hh.2.2 hc
          · rw [if_neg hc] at h1
            exact Or.inl h1
        · simp at h2
          rw [h2]
          right
          show (0 : ℚ) < swap.tokenAmount - h.totalQuantity
          linarith
      · rw [processSell_normal hget hl hov, handleNormalSell_closedTrades]
        intro t ht
        rcases List.mem_append.mp ht with h1 | h2
        · exact Or.inl h1
        · simp at h2
          rw [h2]
          right
          show (0 : ℚ) < (fifoConsume swap.tokenAmount h.purchaseLots 0 0 0).2.1
          obtain ⟨l, rest, hlots⟩ := List.exists_cons_of_ne_nil hl
          rw [hlots] at hh ⊢
          exact fifoConsume_sold_pos hh.2.2 heps

/-! ## Claim theorems -/

/-- C2: a sell with no holding (or no purchase lot) for its asset yields
exactly one `ClosedTrade` with cost basis 0, proceeds equal to the full base
amount, realized PnL exactly 0 (not the proceeds), quantity equal to the
sell's traded amount, zero holding duration, the `zeroProfit` counter
incremented by 1, the rest of the state untouched, and no exception (the
embedding is a total function). -/
theorem claim_C2_missing_buy_sell (st : EngineState) (swap : Swap)
    (hmiss : getHolding st.holdings swap.tokenMint = none ∨
      ∃ h, getHolding st.holdings swap.tokenMint = some h ∧ h.purchaseLots = []) :
    ∃ t : ClosedTrade,
      processSellEnhanced st swap =
        { st with closedTrades := st.closedTrades ++ [t]
                  zeroProfit := st.zeroProfit + 1 } ∧
      t.totalCostBasisInSol = 0 ∧
      t.totalProceedsInSol = swap.solAmount ∧
      t.realizedPnLInSol = 0 ∧
      (swap.solAmount ≠ 0 → t.realizedPnLInSol ≠ t.totalProceedsInSol) ∧
      t.quantity = swap.tokenAmount ∧
      t.holdingDurationSeconds = 0 := by
  have heq : processSellEnhanced st swap = handleMissingBuy st swap := by
    rcases hmiss with h1 | ⟨h, h2, h3⟩
    · exact processSell_missing_none h1
    · exact processSell_missing_empty h2 h3
  rw [heq]
  refine ⟨_, rfl, rfl, rfl, rfl, ?_, rfl, rfl⟩
  intro hs0 hcontra
  exact hs0 (by
    have : (0 : ℚ) = swap.solAmount := hcontra
    exact this.symm)

/-- Witness for C2: selling 100 units for 1 base with no prior buy. -/
theorem claim_C2_witness :
    ∃ t : ClosedTrade,
      processSellEnhanced initState
          ⟨"s", 100, 0, "X", 100, 1, Direction.sell, "p", 1/100⟩ =
        { initState with
            closedTrades := initState.closedTrades ++ [t]
            zeroProfit := initState.zeroProfit + 1 } ∧
      t.totalCostBasisInSol = 0 ∧
      t.totalProceedsInSol = (1 : ℚ) ∧
      t.realizedPnLInSol = 0 ∧
      ((1 : ℚ) ≠ 0 → t.realizedPnLInSol ≠ t.totalProceedsInSol) ∧
      t.quantity = (100 : ℚ) ∧
      t.holdingDurationSeconds = 0 :=
  claim_C2_missing_buy_sell initState
    ⟨"s", 100, 0, "X", 100, 1, Direction.sell, "p", 1/100⟩ (Or.inl rfl)

/-- C9 (code bug): on an empty swap list — and likewise on any run that
produces zero closed trades — `calculateDataQualityScore` divides `0/0`,
the NaN propagates through `Math.max(0, Math.min(100, score))`, and the
summary's `dataQualityScore` is NaN rather than a number in [0, 100]. -/
theorem claim_C9_nan_score :
    (processSwapsForPnL []).processingSummary.dataQualityScore = JsNum.nan := by
  norm_num [processSwapsForPnL, validateAndFilterSwaps, sortByTimestamp,
    calculateDataQualityScore, jsDivQ, jsSub, jsMulC, jsAddC, jsMin, jsMax, initState]

/-- C10 (implicit): a sell whose requested quantity exceeds the available
holding quantity but stays within the 0.1% tolerance is processed as a fully
matched sell: exactly one `ClosedTrade` is emitted, its proceeds are the full
`solAmount` of the swap, its quantity is the lot quantity actually consumed —
at most the available quantity and strictly less than the requested
quantity — and the oversell counter is not incremented. -/
theorem claim_C10_tolerated_oversell (st : EngineState) (swap : Swap) (holding : Holding)
    (hget : getHolding st.holdings swap.tokenMint = some holding)
    (hl : holding.purchaseLots ≠ [])
    (hpos : ∀ l ∈ holding.purchaseLots, 0 < l.quantity)
    (hbound : lotsQty holding.purchaseLots ≤ holding.totalQuantity)
    (hover : holding.totalQuantity < swap.tokenAmount)
    (htol : swap.tokenAmount ≤ holding.totalQuantity * oversellTolerance) :
    ∃ t : ClosedTrade,
      (processSellEnhanced st swap).closedTrades = st.closedTrades ++ [t] ∧
      t.totalProceedsInSol = swap.solAmount ∧
      t.quantity ≤ holding.totalQuantity ∧
      t.quantity < swap.tokenAmount ∧
      (processSellEnhanced st swap).oversellCount = st.oversellCount := by
  have hov : ¬ holding.totalQuantity * oversellTolerance < swap.tokenAmount :=
    not_lt.mpr htol
  rw [processSell_normal hget hl hov]
  have hsold : (fifoConsume swap.tokenAmount holding.purchaseLots 0 0 0).2.1 ≤
      holding.totalQuantity :=
    le_trans (fifoConsume_sold_le hpos) hbound
  exact ⟨_, handleNormalSell_closedTrades st swap holding, rfl, hsold,
    lt_of_le_of_lt hsold hover, (handleNormalSell_counters st swap holding).1⟩

/-- Witness for C10: holding 1000 units, sell 1000.5 ≤ 1000 × 1.001. -/
theorem claim_C10_witness :
    ∃ t : ClosedTrade,
      (processSellEnhanced
          { holdings := [⟨"X", [⟨1000, 1/100, 50, "a"⟩], 1000, 1/100⟩]
            closedTrades := [], oversellCount := 0, zeroProfit := 0
            totalBuyVolume := 10, totalSellVolume := 0, buyCount := 1, sellCount := 0 }
          ⟨"s", 100, 0, "X", 20010/20, 11, Direction.sell, "p", 220/20010⟩).closedTrades =
        ([] : List ClosedTrade) ++ [t] ∧
      t.totalProceedsInSol = (11 : ℚ) ∧
      t.quantity ≤ (1000 : ℚ) ∧
      t.quantity < (20010/20 : ℚ) ∧
      (processSellEnhanced
          { holdings := [⟨"X", [⟨1000, 1/100, 50, "a"⟩], 1000, 1/100⟩]
            closedTrades := [], oversellCount := 0, zeroProfit := 0
            totalBuyVolume := 10, totalSellVolume := 0, buyCount := 1, sellCount := 0 }
          ⟨"s", 100, 0, "X", 20010/20, 11, Direction.sell, "p", 220/20010⟩).oversellCount
        = 0 :=
  claim_C10_tolerated_oversell _ _ ⟨"X", [⟨1000, 1/100, 50, "a"⟩], 1000, 1/100⟩
    rfl (by simp)
    (by intro l hlm; simp at hlm; rw [hlm]; norm_num)
    (by norm_num [lotsQty]) (by norm_num) (by norm_num [oversellTolerance])

/-- Counterexample to C1 as stated: a sell beyond the oversell tolerance
while a holding with `available > 0` exists (here `available = 10⁻⁷`) emits
only ONE `ClosedTrade`, not two — the matched trade requires
`available > 0.000001`, not `available > 0` — though the oversell counter is
incremented. -/
theorem claim_C1_counterexample :
    ((processSwapWithValidation initState
        ⟨"a", 100, 0, "X", 1/10000000, 1/10, Direction.buy, "p", 1000000⟩).holdings.map
      Holding.totalQuantity) = [1/10000000] ∧
    (0 : ℚ) < 1/10000000 ∧
    (1/10000000 : ℚ) * oversellTolerance < 1 ∧
    (processSwapsForPnL
        [⟨"a", 100, 0, "X", 1/10000000, 1/10, Direction.buy, "p", 1000000⟩,
         ⟨"b", 200, 0, "X", 1, 1, Direction.sell, "p", 1⟩]).closedTrades.length = 1 ∧
    (processSwapsForPnL
        [⟨"a", 100, 0, "X", 1/10000000, 1/10, Direction.buy, "p", 1000000⟩,
         ⟨"b", 200, 0, "X", 1, 1, Direction.sell, "p", 1⟩]).processingSummary.oversellTradesCreated
      = 1 := by
  refine ⟨?_, by norm_num, by norm_num [oversellTolerance], ?_, ?_⟩ <;>
    norm_num [processSwapsForPnL, validateAndFilterSwaps, validSwap, sortByTimestamp, insertByTs,
      processSwapWithValidation, processBuyEnhanced, processSellEnhanced, handleMissingBuy,
      handleNormalSell, handlePartialOversell, fifoConsume, getHolding, setHolding, deleteHolding,
      lotsQty, lotsCost, validateAndCleanHoldings, cleanHolding, initState, eps, oversellTolerance,
      List.find?, List.filter, List.filterMap, Option.getD, List.cons_ne_nil]

/-- C1 (amended): when an above-dust holding (`eps < available`, with its
recorded `totalQuantity` consistent with its positive lots and an above-dust
last lot) is oversold beyond the 0.1% tolerance, the engine emits exactly two
`ClosedTrade`s — a matched trade with proceeds `solAmount × (available /
requested)`, cost basis equal to the full remaining lot cost, and quantity
`available` (it consumes all remaining lots: the holding is deleted) — and a
zero-cost oversell trade with proceeds `solAmount × ((requested − available) /
requested)`, quantity `requested − available` and realized PnL exactly 0; the
oversell counter is incremented by exactly 1. -/
theorem claim_C1_oversell_split (st : EngineState) (swap : Swap) (holding : Holding)
    (hget : getHolding st.holdings swap.tokenMint = some holding)
    (hl : holding.purchaseLots ≠ [])
    (hpos : ∀ l ∈ holding.purchaseLots, 0 < l.quantity)
    (hqty : holding.totalQuantity = lotsQty holding.purchaseLots)
    (hlast : eps < (holding.purchaseLots.getLast hl).quantity)
    (heps : eps < holding.totalQuantity)
    (hov : holding.totalQuantity * oversellTolerance < swap.tokenAmount) :
    ∃ t₁ t₂ : ClosedTrade,
      (processSellEnhanced st swap).closedTrades = st.closedTrades ++ [t₁, t₂] ∧
      t₁.totalCostBasisInSol = lotsCost holding.purchaseLots ∧
      t₁.totalProceedsInSol = swap.solAmount * (holding.totalQuantity / swap.tokenAmount) ∧
      t₁.quantity = holding.totalQuantity ∧
      t₂.totalCostBasisInSol = 0 ∧
      t₂.totalProceedsInSol =
        swap.solAmount * ((swap.tokenAmount - holding.totalQuantity) / swap.tokenAmount) ∧
      t₂.quantity = swap.tokenAmount - holding.totalQuantity ∧
      t₂.realizedPnLInSol = 0 ∧
      (processSellEnhanced st swap).oversellCount = st.oversellCount + 1 ∧
      getHolding (processSellEnhanced st swap).holdings swap.tokenMint = none := by
  have hqe :
      (fifoConsume holding.totalQuantity holding.purchaseLots 0 0 0).1 =
        lotsCost holding.purchaseLots ∧
      (fifoConsume holding.totalQuantity holding.purchaseLots 0 0 0).2.1 =
        holding.totalQuantity ∧
      (fifoConsume holding.totalQuantity holding.purchaseLots 0 0 0).2.2.2 = [] := by
    rw [hqty]
    have h := fifoConsume_consume_all holding.purchaseLots 0 0 0 hl hpos hlast
    exact ⟨by rw [h.1]; ring, by rw [h.2.1]; ring, h.2.2⟩
  rw [processSell_oversell hget hl hov, handlePartialOversell_eq, if_pos heps]
  dsimp only
  refine ⟨⟨swap.tokenMint, (fifoConsume holding.totalQuantity holding.purchaseLots 0 0 0).1, swap.solAmount * (holding.totalQuantity / swap.tokenAmount), swap.solAmount * (holding.totalQuantity / swap.tokenAmount) - (fifoConsume holding.totalQuantity holding.purchaseLots 0 0 0).1, if 0 < (fifoConsume holding.totalQuantity holding.purchaseLots 0 0 0).1 then (swap.solAmount * (holding.totalQuantity / swap.tokenAmount) - (fifoConsume holding.totalQuantity holding.purchaseLots 0 0 0).1) / (fifoConsume holding.totalQuantity holding.purchaseLots 0 0 0).1 * 100 else 0, swap.timestamp - (fifoConsume holding.totalQuantity holding.purchaseLots 0 0 0).2.2.1, (fifoConsume holding.totalQuantity holding.purchaseLots 0 0 0).2.2.1, swap.timestamp, (fifoConsume holding.totalQuantity holding.purchaseLots 0 0 0).2.1⟩,
    ⟨swap.tokenMint, 0, swap.solAmount * ((swap.tokenAmount - holding.totalQuantity) / swap.tokenAmount), 0, 0, 0, swap.timestamp, swap.timestamp, swap.tokenAmount - holding.totalQuantity⟩,
    ?_, ?_, ?_, ?_, ?_, ?_, ?_, ?_, ?_, ?_⟩
  · rw [handleNormalSell_closedTrades, List.append_assoc]
    rfl
  · show (fifoConsume holding.totalQuantity holding.purchaseLots 0 0 0).1 =
      lotsCost holding.purchaseLots
    exact hqe.1
  · rfl
  · show (fifoConsume holding.totalQuantity holding.purchaseLots 0 0 0).2.1 =
      holding.totalQuantity
    exact hqe.2.1
  · rfl
  · rfl
  · rfl
  · rfl
  · rfl
  · show getHolding (handleNormalSell st _ holding).holdings swap.tokenMint = none
    rw [handleNormalSell_holdings]
    dsimp only
    rw [hqe.2.1, if_pos (by rw [sub_self]; exact eps_pos), getHolding_delete,
      if_pos rfl]

/-- Witness for C1 (amended): the spec's own scenario — holding 6 units,
sell order for 10 units at proceeds 1.0. -/
theorem claim_C1_witness :
    ∃ t₁ t₂ : ClosedTrade,
      (processSellEnhanced
          { holdings := [⟨"X", [⟨6, 1/100, 50, "a"⟩], 6, 1/100⟩]
            closedTrades := [], oversellCount := 0, zeroProfit := 0
            totalBuyVolume := 0, totalSellVolume := 0, buyCount := 1, sellCount := 0 }
          ⟨"s", 100, 0, "X", 10, 1, Direction.sell, "p", 1/10⟩).closedTrades =
        ([] : List ClosedTrade) ++ [t₁, t₂] ∧
      t₁.totalCostBasisInSol = lotsCost [⟨6, 1/100, 50, "a"⟩] ∧
      t₁.totalProceedsInSol = (1 : ℚ) * ((6 : ℚ) / 10) ∧
      t₁.quantity = (6 : ℚ) ∧
      t₂.totalCostBasisInSol = 0 ∧
      t₂.totalProceedsInSol = (1 : ℚ) * (((10 : ℚ) - 6) / 10) ∧
      t₂.quantity = (10 : ℚ) - 6 ∧
      t₂.realizedPnLInSol = 0 ∧
      (processSellEnhanced
          { holdings := [⟨"X", [⟨6, 1/100, 50, "a"⟩], 6, 1/100⟩]
            closedTrades := [], oversellCount := 0, zeroProfit := 0
            totalBuyVolume := 0, totalSellVolume := 0, buyCount := 1, sellCount := 0 }
          ⟨"s", 100, 0, "X", 10, 1, Direction.sell, "p", 1/10⟩).oversellCount = 0 + 1 ∧
      getHolding
        (processSellEnhanced
          { holdings := [⟨"X", [⟨6, 1/100, 50, "a"⟩], 6, 1/100⟩]
            closedTrades := [], oversellCount := 0, zeroProfit := 0
            totalBuyVolume := 0, totalSellVolume := 0, buyCount := 1, sellCount := 0 }
          ⟨"s", 100, 0, "X", 10, 1, Direction.sell, "p", 1/10⟩).holdings "X" = none :=
  claim_C1_oversell_split _ _ ⟨"X", [⟨6, 1/100, 50, "a"⟩], 6, 1/100⟩
    rfl (by simp)
    (by intro l hlm; simp at hlm; rw [hlm]; norm_num)
    (by norm_num [lotsQty]) (by norm_num [eps]) (by norm_num [eps])
    (by norm_num [oversellTolerance])

/-- C3: a fully matched sell consumes lots strictly oldest-first through the
FIFO loop `fifoConsume` (each lot from the front contributing
`min(remaining, lot.quantity)` to cost at its own `costPerUnit`): the emitted
trade's cost basis, quantity and buy timestamp are exactly the FIFO loop's
outputs, the buy timestamp is the first (oldest) lot's timestamp, realized
PnL equals proceeds minus cost basis, and the holding keeps the loop's
remaining lots (front lots removed, a partially consumed lot reduced in
place) — and concretely, buying 5 @0.02 then 5 @0.04 and selling 8 for 0.5
yields `ClosedTrade{costBasis: 0.22, proceeds: 0.5, pnl: 0.28}` with a
remaining holding of 2 units at average cost 0.04. -/
theorem claim_C3_fifo_sell (st : EngineState) (swap : Swap) (holding : Holding)
    (hget : getHolding st.holdings swap.tokenMint = some holding)
    (hl : holding.purchaseLots ≠ [])
    (hov : ¬ holding.totalQuantity * oversellTolerance < swap.tokenAmount)
    (heps : eps < swap.tokenAmount)
    (hts : (holding.purchaseLots.head hl).timestamp ≠ 0) :
    (∃ t : ClosedTrade,
      (processSellEnhanced st swap).closedTrades = st.closedTrades ++ [t] ∧
      t.totalCostBasisInSol = (fifoConsume swap.tokenAmount holding.purchaseLots 0 0 0).1 ∧
      t.quantity = (fifoConsume swap.tokenAmount holding.purchaseLots 0 0 0).2.1 ∧
      t.totalProceedsInSol = swap.solAmount ∧
      t.realizedPnLInSol = swap.solAmount - t.totalCostBasisInSol ∧
      t.buyTimestamp = (holding.purchaseLots.head hl).timestamp ∧
      (processSellEnhanced st swap).holdings =
        (if holding.totalQuantity -
            (fifoConsume swap.tokenAmount holding.purchaseLots 0 0 0).2.1 < eps then
          deleteHolding st.holdings swap.tokenMint
        else
          setHolding st.holdings
            { holding with
                purchaseLots := (fifoConsume swap.tokenAmount holding.purchaseLots 0 0 0).2.2.2
                totalQuantity :=
                  holding.totalQuantity -
                    (fifoConsume swap.tokenAmount holding.purchaseLots 0 0 0).2.1
                averageCostPerUnit :=
                  if 0 < holding.totalQuantity -
                      (fifoConsume swap.tokenAmount holding.purchaseLots 0 0 0).2.1 then
                    lotsCost (fifoConsume swap.tokenAmount holding.purchaseLots 0 0 0).2.2.2 /
                      (holding.totalQuantity -
                        (fifoConsume swap.tokenAmount holding.purchaseLots 0 0 0).2.1)
                  else 0 })) ∧
    (processSwapsForPnL
        [⟨"a", 100, 0, "X", 5, 1/10, Direction.buy, "p", 1/50⟩,
         ⟨"b", 200, 0, "X", 5, 1/5, Direction.buy, "p", 1/25⟩,
         ⟨"c", 300, 0, "X", 8, 1/2, Direction.sell, "p", 1/16⟩]).closedTrades =
      [⟨"X", 11/50, 1/2, 7/25, 1400/11, 200, 100, 300, 8⟩] ∧
    (processSwapsForPnL
        [⟨"a", 100, 0, "X", 5, 1/10, Direction.buy, "p", 1/50⟩,
         ⟨"b", 200, 0, "X", 5, 1/5, Direction.buy, "p", 1/25⟩,
         ⟨"c", 300, 0, "X", 8, 1/2, Direction.sell, "p", 1/16⟩]).openHoldings =
      [⟨"X", [⟨2, 1/25, 200, "b"⟩], 2, 1/25⟩] := by
  refine ⟨?_, ?_, ?_⟩
  · rw [processSell_normal hget hl hov]
    refine ⟨⟨swap.tokenMint, (fifoConsume swap.tokenAmount holding.purchaseLots 0 0 0).1, swap.solAmount, swap.solAmount - (fifoConsume swap.tokenAmount holding.purchaseLots 0 0 0).1, if 0 < (fifoConsume swap.tokenAmount holding.purchaseLots 0 0 0).1 then (swap.solAmount - (fifoConsume swap.tokenAmount holding.purchaseLots 0 0 0).1) / (fifoConsume swap.tokenAmount holding.purchaseLots 0 0 0).1 * 100 else 0, swap.timestamp - (fifoConsume swap.tokenAmount holding.purchaseLots 0 0 0).2.2.1, (fifoConsume swap.tokenAmount holding.purchaseLots 0 0 0).2.2.1, swap.timestamp, (fifoConsume swap.tokenAmount holding.purchaseLots 0 0 0).2.1⟩,
      handleNormalSell_closedTrades st swap holding, rfl, rfl, rfl, rfl, ?_,
      handleNormalSell_holdings st swap holding⟩
    show (fifoConsume swap.tokenAmount holding.purchaseLots 0 0 0).2.2.1 =
      (holding.purchaseLots.head hl).timestamp
    obtain ⟨lot, rest, hlr⟩ := List.exists_cons_of_ne_nil hl
    have hhead : holding.purchaseLots.head hl = lot := by
      have h1 : holding.purchaseLots.head? = some lot := by rw [hlr]; rfl
      have h2 : holding.purchaseLots.head? = some (holding.purchaseLots.head hl) :=
        List.head?_eq_head hl
      exact Option.some.inj (h2.symm.trans h1)
    have hts' : lot.timestamp ≠ 0 := by
      rw [hhead] at hts
      exact hts
    rw [hhead]
    conv_lhs => rw [hlr]
    exact fifoConsume_ts_head heps hts'
  · norm_num [processSwapsForPnL, validateAndFilterSwaps, validSwap, sortByTimestamp, insertByTs,
      processSwapWithValidation, processBuyEnhanced, processSellEnhanced, handleMissingBuy,
      handleNormalSell, handlePartialOversell, fifoConsume, getHolding, setHolding, deleteHolding,
      lotsQty, lotsCost, validateAndCleanHoldings, cleanHolding, initState, eps, oversellTolerance,
      List.find?, List.filter, List.filterMap, Option.getD, List.cons_ne_nil]
  · norm_num [processSwapsForPnL, validateAndFilterSwaps, validSwap, sortByTimestamp, insertByTs,
      processSwapWithValidation, processBuyEnhanced, processSellEnhanced, handleMissingBuy,
      handleNormalSell, handlePartialOversell, fifoConsume, getHolding, setHolding, deleteHolding,
      lotsQty, lotsCost, validateAndCleanHoldings, cleanHolding, initState, eps, oversellTolerance,
      List.find?, List.filter, List.filterMap, Option.getD, List.cons_ne_nil]

/-- Witness for C3: the spec's two-lot scenario applied to the sell step —
holding of lots 5 @0.02 (t=100) and 5 @0.04 (t=200), selling 8 for 0.5. -/
theorem claim_C3_witness :
    (∃ t : ClosedTrade,
      (processSellEnhanced
          { holdings := [⟨"X", [⟨5, 1/50, 100, "a"⟩, ⟨5, 1/25, 200, "b"⟩], 10, 3/100⟩]
            closedTrades := [], oversellCount := 0, zeroProfit := 0
            totalBuyVolume := 3/10, totalSellVolume := 0, buyCount := 2, sellCount := 0 }
          ⟨"c", 300, 0, "X", 8, 1/2, Direction.sell, "p", 1/16⟩).closedTrades =
        ([] : List ClosedTrade) ++ [t] ∧
      t.totalCostBasisInSol =
        (fifoConsume 8 [⟨5, 1/50, 100, "a"⟩, ⟨5, 1/25, 200, "b"⟩] 0 0 0).1 ∧
      t.quantity = (fifoConsume 8 [⟨5, 1/50, 100, "a"⟩, ⟨5, 1/25, 200, "b"⟩] 0 0 0).2.1 ∧
      t.totalProceedsInSol = (1/2 : ℚ) ∧
      t.realizedPnLInSol = (1/2 : ℚ) - t.totalCostBasisInSol ∧
      t.buyTimestamp = (100 : ℚ) ∧
      (processSellEnhanced
          { holdings := [⟨"X", [⟨5, 1/50, 100, "a"⟩, ⟨5, 1/25, 200, "b"⟩], 10, 3/100⟩]
            closedTrades := [], oversellCount := 0, zeroProfit := 0
            totalBuyVolume := 3/10, totalSellVolume := 0, buyCount := 2, sellCount := 0 }
          ⟨"c", 300, 0, "X", 8, 1/2, Direction.sell, "p", 1/16⟩).holdings =
        [⟨"X", [⟨2, 1/25, 200, "b"⟩], 2, 1/25⟩]) ∧
    eps < (8 : ℚ) ∧ ¬ (10 : ℚ) * oversellTolerance < 8 := by
  have hmain := claim_C3_fifo_sell
    { holdings := [⟨"X", [⟨5, 1/50, 100, "a"⟩, ⟨5, 1/25, 200, "b"⟩], 10, 3/100⟩]
      closedTrades := [], oversellCount := 0, zeroProfit := 0
      totalBuyVolume := 3/10, totalSellVolume := 0, buyCount := 2, sellCount := 0 }
    ⟨"c", 300, 0, "X", 8, 1/2, Direction.sell, "p", 1/16⟩
    ⟨"X", [⟨5, 1/50, 100, "a"⟩, ⟨5, 1/25, 200, "b"⟩], 10, 3/100⟩
    rfl (by simp) (by norm_num [oversellTolerance]) (by norm_num [eps]) (by simp)
  obtain ⟨⟨t, h₁, h₂, h₃, h₄, h₅, h₆, h₇⟩, -, -⟩ := hmain
  refine ⟨⟨t, h₁, h₂, h₃, h₄, h₅, by simpa using h₆, ?_⟩,
    by norm_num [eps], by norm_num [oversellTolerance]⟩
  rw [h₇]
  norm_num [fifoConsume, eps, setHolding, deleteHolding, lotsCost, lotsQty]

/-- Counterexample to C4 as stated: with no oversell at all, the sum of
closed-trade cost bases plus the remaining holding's cost basis can differ
from the total buy cost by far more than the dust epsilon (here by 500 SOL):
a near-total sell within the per-lot dust tolerance discards the residual
lot cost, and the residual holding is deleted. -/
theorem claim_C4_counterexample :
    (processSwapsForPnL
        [⟨"a", 100, 0, "X", 1, 1000000000, Direction.buy, "p", 1000000000⟩,
         ⟨"b", 200, 0, "X", 9999995/10000000, 1, Direction.sell, "p", 10000000/9999995⟩]
      ).processingSummary.oversellTradesCreated = 0 ∧
    buysCostOf
        [⟨"a", 100, 0, "X", 1, 1000000000, Direction.buy, "p", 1000000000⟩,
         ⟨"b", 200, 0, "X", 9999995/10000000, 1, Direction.sell, "p", 10000000/9999995⟩] "X" -
      (closedCostOf
          (processSwapsForPnL
            [⟨"a", 100, 0, "X", 1, 1000000000, Direction.buy, "p", 1000000000⟩,
             ⟨"b", 200, 0, "X", 9999995/10000000, 1, Direction.sell, "p", 10000000/9999995⟩]
          ).closedTrades "X" +
        holdingsCostOf
          (processSwapsForPnL
            [⟨"a", 100, 0, "X", 1, 1000000000, Direction.buy, "p", 1000000000⟩,
             ⟨"b", 200, 0, "X", 9999995/10000000, 1, Direction.sell, "p", 10000000/9999995⟩]
          ).openHoldings "X") = 500 ∧
    eps < 500 := by
  have hdir : ¬ (Direction.sell = Direction.buy) := by simp
  refine ⟨?_, ?_, by norm_num [eps]⟩ <;>
    norm_num [processSwapsForPnL, validateAndFilterSwaps, validSwap, sortByTimestamp, insertByTs,
      processSwapWithValidation, processBuyEnhanced, processSellEnhanced, handleMissingBuy,
      handleNormalSell, handlePartialOversell, fifoConsume, getHolding, setHolding, deleteHolding,
      lotsQty, lotsCost, validateAndCleanHoldings, cleanHolding, initState, eps, oversellTolerance,
      buysCostOf_cons, buysCostOf_nil, closedCostOf, holdingsCostOf, if_neg hdir,
      List.find?, List.filter, List.filterMap, Option.getD, List.cons_ne_nil]

/-- C4 (amended): exact conservation holds for an asset whose processing run
is well-behaved (`runOK`: no oversell of the asset, dust-exact FIFO
consumption, holdings deleted only when their lot list is empty) and whose
final holding survives the cleaning pass or carries no cost
(`finalHoldingOK`): the cost bases of the asset's closed trades plus the cost
basis of its remaining open holding equal the total cost of its accepted buy
swaps — exactly, not merely within the dust epsilon. -/
theorem claim_C4_conservation (swaps : List Swap) (mint : String)
    (hok : runOK mint initState (sortByTimestamp (validateAndFilterSwaps swaps)) = true)
    (hfin : finalHoldingOK
      ((sortByTimestamp (validateAndFilterSwaps swaps)).foldl processSwapWithValidation
        initState) mint = true) :
    closedCostOf (processSwapsForPnL swaps).closedTrades mint +
      holdingsCostOf (processSwapsForPnL swaps).openHoldings mint =
    buysCostOf (validateAndFilterSwaps swaps) mint := by
  have hconserve := conserve_run (sortByTimestamp (validateAndFilterSwaps swaps))
    initState mint hok
  have h00 : mintHoldingCost initState.holdings mint = 0 := mintHoldingCost_none rfl
  have h01 : closedCostOf initState.closedTrades mint = 0 := rfl
  rw [h00, h01] at hconserve
  have hperm : buysCostOf (sortByTimestamp (validateAndFilterSwaps swaps)) mint =
      buysCostOf (validateAndFilterSwaps swaps) mint :=
    buysCostOf_perm (sortByTimestamp_perm _) mint
  have hinv := run_inv (sortByTimestamp (validateAndFilterSwaps swaps)) initState
    (fun s hs => mem_sorted_valid hs) initState_inv
  have hnodup := hinv.1.2
  have hfin' : ∀ h : Holding,
      getHolding ((sortByTimestamp (validateAndFilterSwaps swaps)).foldl
        processSwapWithValidation initState).holdings mint = some h →
      eps < h.totalQuantity ∨ lotsCost h.purchaseLots = 0 := by
    intro h hh
    unfold finalHoldingOK at hfin
    rw [hh] at hfin
    rcases Bool.or_eq_true_iff.mp hfin with h1 | h2
    · exact Or.inl (of_decide_eq_true h1)
    · exact Or.inr (of_decide_eq_true h2)
  rw [processSwapsForPnL_closedTrades, processSwapsForPnL_openHoldings,
    holdingsCostOf_clean _ hnodup mint]
  cases hget : getHolding
      ((sortByTimestamp (validateAndFilterSwaps swaps)).foldl processSwapWithValidation
        initState).holdings mint with
  | none =>
    rw [mintHoldingCost_none hget] at hconserve
    dsimp only
    simp only [zero_add] at hconserve
    rw [add_zero, hconserve, hperm]
  | some h =>
    rw [mintHoldingCost_some hget] at hconserve
    dsimp only
    by_cases hq : eps < h.totalQuantity
    · rw [if_pos hq]
      linarith [hperm, hconserve]
    · have hzero : lotsCost h.purchaseLots = 0 := by
        rcases hfin' h hget with h1 | h2
        · exact absurd h1 hq
        · exact h2
      rw [if_neg hq]
      rw [hzero] at hconserve
      linarith [hperm, hconserve]

/-- Witness for C4 (amended): the two-buys-one-sell scenario of C3 conserves
cost exactly — 0.22 (closed) + 0.08 (open holding) = 0.30 (buys). -/
theorem claim_C4_witness :
    runOK "X" initState
      (sortByTimestamp (validateAndFilterSwaps
        [⟨"a", 100, 0, "X", 5, 1/10, Direction.buy, "p", 1/50⟩,
         ⟨"b", 200, 0, "X", 5, 1/5, Direction.buy, "p", 1/25⟩,
         ⟨"c", 300, 0, "X", 8, 1/2, Direction.sell, "p", 1/16⟩])) = true ∧
    closedCostOf
        (processSwapsForPnL
          [⟨"a", 100, 0, "X", 5, 1/10, Direction.buy, "p", 1/50⟩,
           ⟨"b", 200, 0, "X", 5, 1/5, Direction.buy, "p", 1/25⟩,
           ⟨"c", 300, 0, "X", 8, 1/2, Direction.sell, "p", 1/16⟩]).closedTrades "X" +
      holdingsCostOf
        (processSwapsForPnL
          [⟨"a", 100, 0, "X", 5, 1/10, Direction.buy, "p", 1/50⟩,
           ⟨"b", 200, 0, "X", 5, 1/5, Direction.buy, "p", 1/25⟩,
           ⟨"c", 300, 0, "X", 8, 1/2, Direction.sell, "p", 1/16⟩]).openHoldings "X" =
    buysCostOf
      (validateAndFilterSwaps
        [⟨"a", 100, 0, "X", 5, 1/10, Direction.buy, "p", 1/50⟩,
         ⟨"b", 200, 0, "X", 5, 1/5, Direction.buy, "p", 1/25⟩,
         ⟨"c", 300, 0, "X", 8, 1/2, Direction.sell, "p", 1/16⟩]) "X" := by
  constructor
  · norm_num [runOK, sellStepOK, consumeExactB, validateAndFilterSwaps, validSwap,
      sortByTimestamp, insertByTs, processSwapWithValidation, processBuyEnhanced,
      processSellEnhanced, handleMissingBuy, handleNormalSell, handlePartialOversell,
      fifoConsume, getHolding, setHolding, deleteHolding, lotsQty, lotsCost, initState,
      eps, oversellTolerance, List.find?, List.filter, Option.getD, List.cons_ne_nil]
  · exact claim_C4_conservation
      [⟨"a", 100, 0, "X", 5, 1/10, Direction.buy, "p", 1/50⟩,
       ⟨"b", 200, 0, "X", 5, 1/5, Direction.buy, "p", 1/25⟩,
       ⟨"c", 300, 0, "X", 8, 1/2, Direction.sell, "p", 1/16⟩] "X"
      (by norm_num [runOK, sellStepOK, consumeExactB, validateAndFilterSwaps, validSwap,
        sortByTimestamp, insertByTs, processSwapWithValidation, processBuyEnhanced,
        processSellEnhanced, handleMissingBuy, handleNormalSell, handlePartialOversell,
        fifoConsume, getHolding, setHolding, deleteHolding, lotsQty, lotsCost, initState,
        eps, oversellTolerance, List.find?, List.filter, Option.getD, List.cons_ne_nil])
      (by norm_num [finalHoldingOK, validateAndFilterSwaps, validSwap,
        sortByTimestamp, insertByTs, processSwapWithValidation, processBuyEnhanced,
        processSellEnhanced, handleMissingBuy, handleNormalSell, handlePartialOversell,
        fifoConsume, getHolding, setHolding, deleteHolding, lotsQty, lotsCost, initState,
        eps, oversellTolerance, List.find?, List.filter, Option.getD, List.cons_ne_nil])

/-- Counterexample to C5 as stated: a sell at or below the dust epsilon
(here 10⁻⁷ ≤ eps) passes validation and emits a `ClosedTrade` with
`quantity = 0`, refuting `ClosedTrade.quantity > 0`. -/
theorem claim_C5_counterexample :
    ((processSwapsForPnL
        [⟨"a", 100, 0, "X", 10, 1/10, Direction.buy, "p", 1/100⟩,
         ⟨"b", 200, 0, "X", 1/10000000, 1/1000, Direction.sell, "p", 10000⟩]).closedTrades.map
      ClosedTrade.quantity) = [0] ∧
    (1/10000000 : ℚ) ≤ eps := by
  refine ⟨?_, by norm_num [eps]⟩
  norm_num [processSwapsForPnL, validateAndFilterSwaps, validSwap, sortByTimestamp, insertByTs,
    processSwapWithValidation, processBuyEnhanced, processSellEnhanced, handleMissingBuy,
    handleNormalSell, handlePartialOversell, fifoConsume, getHolding, setHolding, deleteHolding,
    lotsQty, lotsCost, validateAndCleanHoldings, cleanHolding, initState, eps, oversellTolerance,
    List.find?, List.filter, List.filterMap, Option.getD, List.cons_ne_nil]

/-- C5 (amended): for every input swap list, every open holding the engine
returns has `totalQuantity ≥ 0` and every emitted `ClosedTrade` has
`quantity ≥ 0`; the strict bound `quantity > 0` holds for the trades emitted
by any sell whose `tokenAmount` exceeds the dust epsilon (on a well-formed
state), but not for at-or-below-dust sells. -/
theorem claim_C5_nonneg (swaps : List Swap) :
    (∀ h ∈ (processSwapsForPnL swaps).openHoldings, 0 ≤ h.totalQuantity) ∧
    (∀ t ∈ (processSwapsForPnL swaps).closedTrades, 0 ≤ t.quantity) ∧
    (∀ (st : EngineState) (swap : Swap), StateInv st → eps < swap.tokenAmount →
      ∀ t ∈ (processSellEnhanced st swap).closedTrades,
        t ∈ st.closedTrades ∨ 0 < t.quantity) := by
  have hinv := run_inv (sortByTimestamp (validateAndFilterSwaps swaps)) initState
    (fun s hs => mem_sorted_valid hs) initState_inv
  refine ⟨?_, ?_, fun st swap h he => sell_trades_pos h he⟩
  · intro y hy
    rw [processSwapsForPnL_openHoldings] at hy
    obtain ⟨x, hx, hq, hyeq⟩ := mem_clean hy
    have hxfacts := hinv.1.1 x hx
    rcases hyeq ▸ cleanHolding_totalQuantity x with h1 | h1
    · rw [h1]
      exact hxfacts.1
    · rw [h1]
      exact lotsQty_nonneg (fun l hl => le_of_lt (hxfacts.2.2 l hl))
  · intro t ht
    rw [processSwapsForPnL_closedTrades] at ht
    exact hinv.2 t ht

/-- Witness for C5 (amended): the counterexample run satisfies the amended
bounds, and a sell of 100 units (well above dust) from the initial state
emits only positive-quantity trades. -/
theorem claim_C5_witness :
    (∀ h ∈ (processSwapsForPnL
        [⟨"a", 100, 0, "X", 10, 1/10, Direction.buy, "p", 1/100⟩,
         ⟨"b", 200, 0, "X", 1/10000000, 1/1000, Direction.sell, "p", 10000⟩]).openHoldings,
      0 ≤ h.totalQuantity) ∧
    (∀ t ∈ (processSwapsForPnL
        [⟨"a", 100, 0, "X", 10, 1/10, Direction.buy, "p", 1/100⟩,
         ⟨"b", 200, 0, "X", 1/10000000, 1/1000, Direction.sell, "p", 10000⟩]).closedTrades,
      0 ≤ t.quantity) ∧
    StateInv initState ∧ eps < (100 : ℚ) ∧
    (∀ t ∈ (processSellEnhanced initState
        ⟨"s", 300, 0, "Y", 100, 1, Direction.sell, "p", 1/100⟩).closedTrades,
      t ∈ initState.closedTrades ∨ 0 < t.quantity) :=
  ⟨(claim_C5_nonneg
      [⟨"a", 100, 0, "X", 10, 1/10, Direction.buy, "p", 1/100⟩,
       ⟨"b", 200, 0, "X", 1/10000000, 1/1000, Direction.sell, "p", 10000⟩]).1,
   (claim_C5_nonneg
      [⟨"a", 100, 0, "X", 10, 1/10, Direction.buy, "p", 1/100⟩,
       ⟨"b", 200, 0, "X", 1/10000000, 1/1000, Direction.sell, "p", 10000⟩]).2.1,
   initState_inv, by norm_num [eps],
   (claim_C5_nonneg
      [⟨"a", 100, 0, "X", 10, 1/10, Direction.buy, "p", 1/100⟩,
       ⟨"b", 200, 0, "X", 1/10000000, 1/1000, Direction.sell, "p", 10000⟩]).2.2
     initState ⟨"s", 300, 0, "Y", 100, 1, Direction.sell, "p", 1/100⟩
     initState_inv (by norm_num [eps])⟩

/-- Counterexample to C6 as stated: swapping two buys that share a timestamp
but have different prices changes the engine's output — the stable sort
preserves the input order of timestamp ties, so the FIFO front lot differs
(cost basis 0.1 vs 0.2). -/
theorem claim_C6_counterexample :
    ([⟨"a", 100, 0, "X", 1, 1/10, Direction.buy, "p", 1/10⟩,
      ⟨"b", 100, 0, "X", 1, 1/5, Direction.buy, "p", 1/5⟩,
      ⟨"c", 200, 0, "X", 1, 1, Direction.sell, "p", 1⟩] : List Swap).Perm
      [⟨"b", 100, 0, "X", 1, 1/5, Direction.buy, "p", 1/5⟩,
       ⟨"a", 100, 0, "X", 1, 1/10, Direction.buy, "p", 1/10⟩,
       ⟨"c", 200, 0, "X", 1, 1, Direction.sell, "p", 1⟩] ∧
    ((processSwapsForPnL
        [⟨"a", 100, 0, "X", 1, 1/10, Direction.buy, "p", 1/10⟩,
         ⟨"b", 100, 0, "X", 1, 1/5, Direction.buy, "p", 1/5⟩,
         ⟨"c", 200, 0, "X", 1, 1, Direction.sell, "p", 1⟩]).closedTrades.map
      ClosedTrade.totalCostBasisInSol) = [1/10] ∧
    ((processSwapsForPnL
        [⟨"b", 100, 0, "X", 1, 1/5, Direction.buy, "p", 1/5⟩,
         ⟨"a", 100, 0, "X", 1, 1/10, Direction.buy, "p", 1/10⟩,
         ⟨"c", 200, 0, "X", 1, 1, Direction.sell, "p", 1⟩]).closedTrades.map
      ClosedTrade.totalCostBasisInSol) = [1/5] ∧
    processSwapsForPnL
        [⟨"a", 100, 0, "X", 1, 1/10, Direction.buy, "p", 1/10⟩,
         ⟨"b", 100, 0, "X", 1, 1/5, Direction.buy, "p", 1/5⟩,
         ⟨"c", 200, 0, "X", 1, 1, Direction.sell, "p", 1⟩] ≠
      processSwapsForPnL
        [⟨"b", 100, 0, "X", 1, 1/5, Direction.buy, "p", 1/5⟩,
         ⟨"a", 100, 0, "X", 1, 1/10, Direction.buy, "p", 1/10⟩,
         ⟨"c", 200, 0, "X", 1, 1, Direction.sell, "p", 1⟩] := by
  have h1 : ((processSwapsForPnL
      [⟨"a", 100, 0, "X", 1, 1/10, Direction.buy, "p", 1/10⟩,
       ⟨"b", 100, 0, "X", 1, 1/5, Direction.buy, "p", 1/5⟩,
       ⟨"c", 200, 0, "X", 1, 1, Direction.sell, "p", 1⟩]).closedTrades.map
      ClosedTrade.totalCostBasisInSol) = [1/10] := by
    norm_num [processSwapsForPnL, validateAndFilterSwaps, validSwap, sortByTimestamp, insertByTs,
      processSwapWithValidation, processBuyEnhanced, processSellEnhanced, handleMissingBuy,
      handleNormalSell, handlePartialOversell, fifoConsume, getHolding, setHolding, deleteHolding,
      lotsQty, lotsCost, validateAndCleanHoldings, cleanHolding, initState, eps, oversellTolerance,
      List.find?, List.filter, List.filterMap, Option.getD, List.cons_ne_nil]
  have h2 : ((processSwapsForPnL
      [⟨"b", 100, 0, "X", 1, 1/5, Direction.buy, "p", 1/5⟩,
       ⟨"a", 100, 0, "X", 1, 1/10, Direction.buy, "p", 1/10⟩,
       ⟨"c", 200, 0, "X", 1, 1, Direction.sell, "p", 1⟩]).closedTrades.map
      ClosedTrade.totalCostBasisInSol) = [1/5] := by
    norm_num [processSwapsForPnL, validateAndFilterSwaps, validSwap, sortByTimestamp, insertByTs,
      processSwapWithValidation, processBuyEnhanced, processSellEnhanced, handleMissingBuy,
      handleNormalSell, handlePartialOversell, fifoConsume, getHolding, setHolding, deleteHolding,
      lotsQty, lotsCost, validateAndCleanHoldings, cleanHolding, initState, eps, oversellTolerance,
      List.find?, List.filter, List.filterMap, Option.getD, List.cons_ne_nil]
  refine ⟨List.Perm.swap _ _ _, h1, h2, fun he => ?_⟩
  rw [he] at h1
  exact absurd (h1.symm.trans h2) (by norm_num)

/-- C6 (amended): permutation invariance does hold whenever the accepted
swaps carry pairwise-distinct timestamps — then the stable sort has a unique
sorted arrangement and the whole output coincides; with timestamp ties the
output depends on the input order (see the counterexample). -/
theorem claim_C6_permutation (L₁ L₂ : List Swap) (hperm : L₁.Perm L₂)
    (hdist : (validateAndFilterSwaps L₁).Pairwise (fun a b => a.timestamp ≠ b.timestamp)) :
    processSwapsForPnL L₁ = processSwapsForPnL L₂ := by
  have hvperm : (validateAndFilterSwaps L₁).Perm (validateAndFilterSwaps L₂) :=
    hperm.filter _
  have hsorted : sortByTimestamp (validateAndFilterSwaps L₁) =
      sortByTimestamp (validateAndFilterSwaps L₂) := by
    apply sorted_perm_distinct_eq
    · exact ((sortByTimestamp_perm _).trans hvperm).trans (sortByTimestamp_perm _).symm
    · exact sortByTimestamp_pairwise _
    · exact sortByTimestamp_pairwise _
    · exact ((sortByTimestamp_perm _).pairwise_iff (fun h he => h he.symm)).mpr hdist
  simp only [processSwapsForPnL]
  rw [hsorted, hvperm.length_eq, hperm.length_eq]

/-- Witness for C6 (amended): reordering a buy and a sell with distinct
timestamps does not change the output. -/
theorem claim_C6_witness :
    ([⟨"a", 100, 0, "X", 1, 1/10, Direction.buy, "p", 1/10⟩,
      ⟨"c", 200, 0, "X", 1, 1, Direction.sell, "p", 1⟩] : List Swap).Perm
      [⟨"c", 200, 0, "X", 1, 1, Direction.sell, "p", 1⟩,
       ⟨"a", 100, 0, "X", 1, 1/10, Direction.buy, "p", 1/10⟩] ∧
    processSwapsForPnL
        [⟨"a", 100, 0, "X", 1, 1/10, Direction.buy, "p", 1/10⟩,
         ⟨"c", 200, 0, "X", 1, 1, Direction.sell, "p", 1⟩] =
      processSwapsForPnL
        [⟨"c", 200, 0, "X", 1, 1, Direction.sell, "p", 1⟩,
         ⟨"a", 100, 0, "X", 1, 1/10, Direction.buy, "p", 1/10⟩] := by
  have hv : validateAndFilterSwaps
      [⟨"a", 100, 0, "X", 1, 1/10, Direction.buy, "p", 1/10⟩,
       ⟨"c", 200, 0, "X", 1, 1, Direction.sell, "p", 1⟩] =
      [⟨"a", 100, 0, "X", 1, 1/10, Direction.buy, "p", 1/10⟩,
       ⟨"c", 200, 0, "X", 1, 1, Direction.sell, "p", 1⟩] := by
    norm_num [validateAndFilterSwaps, validSwap, List.filter_cons, List.filter_nil, bne]
    simp
  refine ⟨List.Perm.swap _ _ _, claim_C6_permutation _ _ (List.Perm.swap _ _ _) ?_⟩
  rw [hv]
  norm_num [List.pairwise_cons]

/-- C7: whenever the classifier accepts a transaction as a swap, the traded
asset is a non-base net-change entry of maximal absolute net delta (direction
`buy` iff that delta is positive, `tokenAmount` its absolute value), the
swap's `solAmount` is `largestOutgoingSol` for a buy and `largestIncomingSol`
for a sell — each of which bounds every single base-asset amount the account
sent (resp. received) across native and wrapped representations, and when
nonzero is attained by one of them — the unit price is `solAmount /
tokenAmount`, and the claim's concrete transaction (net delta +1000 of X,
2.0 base sent) classifies as a buy of 1000 X for 2.0 at unit price 0.002. -/
theorem claim_C7_classifier (tx : ParsedTransaction) (wallet platform : String) (s : Swap)
    (h : createSwapFromRawTransfers tx wallet platform = some s) :
    (∃ entry ∈ nonZeroChanges tx wallet,
      entry.2 = netTokenDelta tx wallet entry.1 ∧
      entry.2 ≠ 0 ∧
      (∀ p ∈ nonZeroChanges tx wallet, |p.2| ≤ |entry.2|) ∧
      s.tokenMint = entry.1 ∧
      s.direction = (if 0 < entry.2 then Direction.buy else Direction.sell) ∧
      s.tokenAmount = |entry.2| ∧
      s.solAmount =
        (if 0 < entry.2 then largestOutgoingSol tx wallet else largestIncomingSol tx wallet) ∧
      s.solAmount ≠ 0 ∧
      s.pricePerToken = s.solAmount / s.tokenAmount) ∧
    (∀ t ∈ tx.nativeTransfers, t.fromUserAccount = wallet →
      t.amount / 1000000000 ≤ largestOutgoingSol tx wallet) ∧
    (∀ t ∈ tx.tokenTransfers, isSolOrWsol t.mint = true → t.fromUserAccount = wallet →
      normalizeTokenAmount t ≤ largestOutgoingSol tx wallet) ∧
    (largestOutgoingSol tx wallet = 0 ∨
      (∃ t ∈ tx.nativeTransfers, t.fromUserAccount = wallet ∧
        largestOutgoingSol tx wallet = t.amount / 1000000000) ∨
      (∃ t ∈ tx.tokenTransfers, isSolOrWsol t.mint = true ∧ t.fromUserAccount = wallet ∧
        largestOutgoingSol tx wallet = normalizeTokenAmount t)) ∧
    (∀ t ∈ tx.nativeTransfers, t.toUserAccount = wallet →
      t.amount / 1000000000 ≤ largestIncomingSol tx wallet) ∧
    (∀ t ∈ tx.tokenTransfers, isSolOrWsol t.mint = true → t.toUserAccount = wallet →
      normalizeTokenAmount t ≤ largestIncomingSol tx wallet) ∧
    (largestIncomingSol tx wallet = 0 ∨
      (∃ t ∈ tx.nativeTransfers, t.toUserAccount = wallet ∧
        largestIncomingSol tx wallet = t.amount / 1000000000) ∨
      (∃ t ∈ tx.tokenTransfers, isSolOrWsol t.mint = true ∧ t.toUserAccount = wallet ∧
        largestIncomingSol tx wallet = normalizeTokenAmount t)) ∧
    createSwapFromRawTransfers
        ⟨"sig", 500, 0, [⟨"X", "pool", "W", 1000⟩], [⟨"W", "pool", 2000000000⟩]⟩ "W" "p" =
      some ⟨"sig", 500, 0, "X", 1000, 2, Direction.buy, "p", 1/500⟩ := by
  refine ⟨?_, ?_, ?_, ?_, ?_, ?_, ?_, ?_⟩
  · unfold createSwapFromRawTransfers at h
    rcases hatd : analyzeTradeDirection tx wallet with _ | ti
    · rw [hatd] at h
      exact absurd h (by simp)
    · rw [hatd] at h
      dsimp only at h
      by_cases hz : ti.solAmount = 0 ∨ ti.tokenAmount = 0
      · rw [if_pos hz] at h
        exact absurd h (by simp)
      · rw [if_neg hz] at h
        have hs : s = ⟨tx.signature, tx.blockTime, tx.fee, ti.tokenMint, ti.tokenAmount, ti.solAmount, ti.direction, platform, ti.solAmount / ti.tokenAmount⟩ := (Option.some.inj h).symm
        unfold analyzeTradeDirection at hatd
        rcases hdom : dominantChange (nonZeroChanges tx wallet) with _ | me
        · rw [hdom] at hatd
          exact absurd hatd (by simp)
        · rw [hdom] at hatd
          dsimp only at hatd
          by_cases hz2 : (if (if 0 < me.2 then Direction.buy else Direction.sell) =
                Direction.buy then largestOutgoingSol tx wallet
              else largestIncomingSol tx wallet) = 0 ∨ |me.2| = 0
          · rw [if_pos hz2] at hatd
            exact absurd hatd (by simp)
          · rw [if_neg hz2] at hatd
            have hti : ti = ⟨if 0 < me.2 then Direction.buy else Direction.sell, me.1, |me.2|,
                if (if 0 < me.2 then Direction.buy else Direction.sell) = Direction.buy then
                  largestOutgoingSol tx wallet else largestIncomingSol tx wallet⟩ :=
              (Option.some.inj hatd).symm
            push_neg at hz2
            have hspec := dominantChange_spec hdom
            have hmemTC : me ∈ tokenChanges tx wallet :=
              (List.mem_filter.mp hspec.1).1
            have hne : me.2 ≠ 0 :=
              of_decide_eq_true (List.mem_filter.mp hspec.1).2
            have hmemTC' : (me.1, me.2) ∈ tokenChanges tx wallet := by
              rw [Prod.mk.eta]
              exact hmemTC
            have hval : getChange (tokenChanges tx wallet) me.1 = me.2 :=
              getChange_of_mem (tokenChanges_nodup tx wallet) hmemTC'
            have hnet : me.2 = netTokenDelta tx wallet me.1 := by
              rw [← getChange_tokenChanges]
              exact hval.symm
            refine ⟨me, hspec.1, hnet, hne, hspec.2, ?_, ?_, ?_, ?_, ?_, ?_⟩
            · rw [hs, hti]
            · rw [hs, hti]
            · rw [hs, hti]
            · rw [hs, hti]
              show (if (if 0 < me.2 then Direction.buy else Direction.sell) =
                  Direction.buy then largestOutgoingSol tx wallet
                else largestIncomingSol tx wallet) =
                if 0 < me.2 then largestOutgoingSol tx wallet else largestIncomingSol tx wallet
              by_cases hpos : 0 < me.2
              · rw [if_pos hpos, if_pos hpos, if_pos rfl]
              · rw [if_neg hpos, if_neg hpos, if_neg (by simp)]
            · rw [hs, hti]
              exact hz2.1
            · rw [hs, hti]
  · intro t ht hfrom
    have hb := foldl_maxUpd_bound (fun t : NativeTransfer => t.fromUserAccount == wallet)
      (fun t => t.amount / 1000000000) tx.nativeTransfers 0 t ht (beq_iff_eq.mpr hfrom)
    have hm := foldl_maxUpd_mono
      (fun t : TokenTransfer => isSolOrWsol t.mint && t.fromUserAccount == wallet)
      normalizeTokenAmount tx.tokenTransfers
      (tx.nativeTransfers.foldl
        (maxUpd (fun t => t.fromUserAccount == wallet) (fun t => t.amount / 1000000000)) 0)
    unfold largestOutgoingSol
    exact le_trans hb hm
  · intro t ht hsol hfrom
    have hb := foldl_maxUpd_bound
      (fun t : TokenTransfer => isSolOrWsol t.mint && t.fromUserAccount == wallet)
      normalizeTokenAmount tx.tokenTransfers
      (tx.nativeTransfers.foldl
        (maxUpd (fun t => t.fromUserAccount == wallet) (fun t => t.amount / 1000000000)) 0)
      t ht (by simp [hsol, hfrom])
    unfold largestOutgoingSol
    exact hb
  · unfold largestOutgoingSol
    rcases foldl_maxUpd_attain
        (fun t : TokenTransfer => isSolOrWsol t.mint && t.fromUserAccount == wallet)
        normalizeTokenAmount tx.tokenTransfers
        (tx.nativeTransfers.foldl
          (maxUpd (fun t => t.fromUserAccount == wallet) (fun t => t.amount / 1000000000)) 0)
      with h1 | ⟨t, hmem, hcond, hvalt⟩
    · rcases foldl_maxUpd_attain
          (fun t : NativeTransfer => t.fromUserAccount == wallet)
          (fun t => t.amount / 1000000000) tx.nativeTransfers 0
        with h2 | ⟨t, hmem, hcond, hvalt⟩
      · left
        rw [h1, h2]
      · right; left
        refine ⟨t, hmem, beq_iff_eq.mp hcond, ?_⟩
        rw [h1, ← hvalt]
    · right; right
      have hc : isSolOrWsol t.mint = true ∧ t.fromUserAccount = wallet := by
        simpa using hcond
      refine ⟨t, hmem, hc.1, hc.2, ?_⟩
      rw [← hvalt]
  · intro t ht hto
    have hb := foldl_maxUpd_bound (fun t : NativeTransfer => t.toUserAccount == wallet)
      (fun t => t.amount / 1000000000) tx.nativeTransfers 0 t ht (beq_iff_eq.mpr hto)
    have hm := foldl_maxUpd_mono
      (fun t : TokenTransfer => isSolOrWsol t.mint && t.toUserAccount == wallet)
      normalizeTokenAmount tx.tokenTransfers
      (tx.nativeTransfers.foldl
        (maxUpd (fun t => t.toUserAccount == wallet) (fun t => t.amount / 1000000000)) 0)
    unfold largestIncomingSol
    exact le_trans hb hm
  · intro t ht hsol hto
    have hb := foldl_maxUpd_bound
      (fun t : TokenTransfer => isSolOrWsol t.mint && t.toUserAccount == wallet)
      normalizeTokenAmount tx.tokenTransfers
      (tx.nativeTransfers.foldl
        (maxUpd (fun t => t.toUserAccount == wallet) (fun t => t.amount / 1000000000)) 0)
      t ht (by simp [hsol, hto])
    unfold largestIncomingSol
    exact hb
  · unfold largestIncomingSol
    rcases foldl_maxUpd_attain
        (fun t : TokenTransfer => isSolOrWsol t.mint && t.toUserAccount == wallet)
        normalizeTokenAmount tx.tokenTransfers
        (tx.nativeTransfers.foldl
          (maxUpd (fun t => t.toUserAccount == wallet) (fun t => t.amount / 1000000000)) 0)
      with h1 | ⟨t, hmem, hcond, hvalt⟩
    · rcases foldl_maxUpd_attain
          (fun t : NativeTransfer => t.toUserAccount == wallet)
          (fun t => t.amount / 1000000000) tx.nativeTransfers 0
        with h2 | ⟨t, hmem, hcond, hvalt⟩
      · left
        rw [h1, h2]
      · right; left
        refine ⟨t, hmem, beq_iff_eq.mp hcond, ?_⟩
        rw [h1, ← hvalt]
    · right; right
      have hc : isSolOrWsol t.mint = true ∧ t.toUserAccount = wallet := by
        simpa using hcond
      refine ⟨t, hmem, hc.1, hc.2, ?_⟩
      rw [← hvalt]
  · have h1 : nonZeroChanges
        ⟨"sig", 500, 0, [⟨"X", "pool", "W", 1000⟩], [⟨"W", "pool", 2000000000⟩]⟩ "W" =
        [("X", 1000)] := by
      simp [nonZeroChanges, tokenChanges, tokenChangeStep, setChange, getChange,
        normalizeTokenAmount, isSolOrWsol, wsolMint]
    have h2 : analyzeTradeDirection
        ⟨"sig", 500, 0, [⟨"X", "pool", "W", 1000⟩], [⟨"W", "pool", 2000000000⟩]⟩ "W" =
        some ⟨Direction.buy, "X", 1000, 2⟩ := by
      unfold analyzeTradeDirection
      rw [h1]
      norm_num [dominantChange, largestOutgoingSol, largestIncomingSol, maxUpd,
        isSolOrWsol, wsolMint, normalizeTokenAmount]
      simp
    unfold createSwapFromRawTransfers
    rw [h2]
    norm_num

/-- Witness for C7: the claim's concrete transaction — the account sends
2 SOL natively and receives 1000 X — instantiates the classifier
characterization (dominant entry ("X", +1000), direction buy, base amount
2.0). -/
theorem claim_C7_witness :
    ∃ entry ∈ nonZeroChanges
        ⟨"sig", 500, 0, [⟨"X", "pool", "W", 1000⟩], [⟨"W", "pool", 2000000000⟩]⟩ "W",
      entry.2 = netTokenDelta
        ⟨"sig", 500, 0, [⟨"X", "pool", "W", 1000⟩], [⟨"W", "pool", 2000000000⟩]⟩ "W"
        entry.1 ∧
      entry.2 ≠ 0 ∧
      (∀ p ∈ nonZeroChanges
          ⟨"sig", 500, 0, [⟨"X", "pool", "W", 1000⟩], [⟨"W", "pool", 2000000000⟩]⟩ "W",
        |p.2| ≤ |entry.2|) ∧
      (⟨"sig", 500, 0, "X", 1000, 2, Direction.buy, "p", 1/500⟩ : Swap).tokenMint =
        entry.1 ∧
      (⟨"sig", 500, 0, "X", 1000, 2, Direction.buy, "p", 1/500⟩ : Swap).direction =
        (if 0 < entry.2 then Direction.buy else Direction.sell) ∧
      (⟨"sig", 500, 0, "X", 1000, 2, Direction.buy, "p", 1/500⟩ : Swap).tokenAmount =
        |entry.2| ∧
      (⟨"sig", 500, 0, "X", 1000, 2, Direction.buy, "p", 1/500⟩ : Swap).solAmount =
        (if 0 < entry.2 then
          largestOutgoingSol
            ⟨"sig", 500, 0, [⟨"X", "pool", "W", 1000⟩], [⟨"W", "pool", 2000000000⟩]⟩ "W"
        else
          largestIncomingSol
            ⟨"sig", 500, 0, [⟨"X", "pool", "W", 1000⟩], [⟨"W", "pool", 2000000000⟩]⟩ "W") ∧
      (⟨"sig", 500, 0, "X", 1000, 2, Direction.buy, "p", 1/500⟩ : Swap).solAmount ≠ 0 ∧
      (⟨"sig", 500, 0, "X", 1000, 2, Direction.buy, "p", 1/500⟩ : Swap).pricePerToken =
        (⟨"sig", 500, 0, "X", 1000, 2, Direction.buy, "p", 1/500⟩ : Swap).solAmount /
          (⟨"sig", 500, 0, "X", 1000, 2, Direction.buy, "p", 1/500⟩ : Swap).tokenAmount :=
  (claim_C7_classifier
    ⟨"sig", 500, 0, [⟨"X", "pool", "W", 1000⟩], [⟨"W", "pool", 2000000000⟩]⟩ "W" "p"
    ⟨"sig", 500, 0, "X", 1000, 2, Direction.buy, "p", 1/500⟩
    (by
      have h1 : nonZeroChanges
          ⟨"sig", 500, 0, [⟨"X", "pool", "W", 1000⟩], [⟨"W", "pool", 2000000000⟩]⟩ "W" =
          [("X", 1000)] := by
        simp [nonZeroChanges, tokenChanges, tokenChangeStep, setChange, getChange,
          normalizeTokenAmount, isSolOrWsol, wsolMint]
      have h2 : analyzeTradeDirection
          ⟨"sig", 500, 0, [⟨"X", "pool", "W", 1000⟩], [⟨"W", "pool", 2000000000⟩]⟩ "W" =
          some ⟨Direction.buy, "X", 1000, 2⟩ := by
        unfold analyzeTradeDirection
        rw [h1]
        norm_num [dominantChange, largestOutgoingSol, largestIncomingSol, maxUpd,
          isSolOrWsol, wsolMint, normalizeTokenAmount]
        simp
      unfold createSwapFromRawTransfers
      rw [h2]
      norm_num)).1

/-- Counterexample to C8 as stated: a quality assessment with a detected
oversell (a WARNING OVERSELL issue is present) still reports HIGH confidence
when the overall score exceeds 80 — an oversell condition does not force the
level below HIGH. -/
theorem claim_C8_counterexample :
    (assessDataQuality [⟨"t1", 1000, 0, [], []⟩]
        [⟨"s1", 1000, 0, "T", 100, 1, Direction.buy, "pump", 1/100⟩,
         ⟨"s2", 2000, 0, "T", 200, 2, Direction.sell, "pump", 1/100⟩]
        [⟨"T", 1, 3/2, 1/2, 50, 1000, 1000, 2000, 100⟩] []).issues =
      [⟨Severity.WARNING, IssueCategory.OVERSELL⟩] ∧
    (assessDataQuality [⟨"t1", 1000, 0, [], []⟩]
        [⟨"s1", 1000, 0, "T", 100, 1, Direction.buy, "pump", 1/100⟩,
         ⟨"s2", 2000, 0, "T", 200, 2, Direction.sell, "pump", 1/100⟩]
        [⟨"T", 1, 3/2, 1/2, 50, 1000, 1000, 2000, 100⟩] []).overallScore = 185/2 ∧
    (assessDataQuality [⟨"t1", 1000, 0, [], []⟩]
        [⟨"s1", 1000, 0, "T", 100, 1, Direction.buy, "pump", 1/100⟩,
         ⟨"s2", 2000, 0, "T", 200, 2, Direction.sell, "pump", 1/100⟩]
        [⟨"T", 1, 3/2, 1/2, 50, 1000, 1000, 2000, 100⟩] []).confidenceLevel =
      ConfidenceLevel.HIGH := by
  refine ⟨?_, ?_, ?_⟩
  · simp [assessDataQuality, assessSwapDetection, assessPnLCalculation,
      assessDataCompleteness, assessPriceDataQuality, findRapidTrades, sortByTimestamp,
      insertByTs, findTimeGaps, sortByBlockTime, insertByBlockTime, oversellTokensOf,
      oversellTokensOf.setEntry, jsDivQ, jsLt, determineConfidenceLevel]
    norm_num
  · simp [assessDataQuality, assessSwapDetection, assessPnLCalculation,
      assessDataCompleteness, assessPriceDataQuality, findRapidTrades, sortByTimestamp,
      insertByTs, findTimeGaps, sortByBlockTime, insertByBlockTime, oversellTokensOf,
      oversellTokensOf.setEntry, jsDivQ, jsLt, determineConfidenceLevel]
    norm_num
  · simp [assessDataQuality, assessSwapDetection, assessPnLCalculation,
      assessDataCompleteness, assessPriceDataQuality, findRapidTrades, sortByTimestamp,
      insertByTs, findTimeGaps, sortByBlockTime, insertByBlockTime, oversellTokensOf,
      oversellTokensOf.setEntry, jsDivQ, jsLt, determineConfidenceLevel]
    norm_num
    decide

/-- C8 (amended): the confidence level is LOW exactly when an ERROR-severity
issue exists or the overall score is below 60; MEDIUM exactly when it is not
LOW and either more than 3 WARNING-severity issues exist or the score is
below 80; and HIGH exactly otherwise — oversell WARNINGs do not by
themselves cap the level below HIGH. -/
theorem claim_C8_confidence (ts : List ParsedTransaction) (ss : List Swap)
    (cts : List ClosedTrade) (ohs : List Holding) :
    ((assessDataQuality ts ss cts ohs).confidenceLevel = ConfidenceLevel.LOW ↔
      (∃ i ∈ (assessDataQuality ts ss cts ohs).issues, i.severity = Severity.ERROR) ∨
        (assessDataQuality ts ss cts ohs).overallScore < 60) ∧
    ((assessDataQuality ts ss cts ohs).confidenceLevel = ConfidenceLevel.MEDIUM ↔
      ¬ ((∃ i ∈ (assessDataQuality ts ss cts ohs).issues, i.severity = Severity.ERROR) ∨
          (assessDataQuality ts ss cts ohs).overallScore < 60) ∧
      (3 < ((assessDataQuality ts ss cts ohs).issues.filter
          (fun i => decide (i.severity = Severity.WARNING))).length ∨
        (assessDataQuality ts ss cts ohs).overallScore < 80)) ∧
    ((assessDataQuality ts ss cts ohs).confidenceLevel = ConfidenceLevel.HIGH ↔
      ¬ ((∃ i ∈ (assessDataQuality ts ss cts ohs).issues, i.severity = Severity.ERROR) ∨
          (assessDataQuality ts ss cts ohs).overallScore < 60) ∧
      ¬ (3 < ((assessDataQuality ts ss cts ohs).issues.filter
          (fun i => decide (i.severity = Severity.WARNING))).length ∨
        (assessDataQuality ts ss cts ohs).overallScore < 80)) := by
  rw [assessDataQuality_confidence]
  exact determineConfidenceLevel_spec _ _

/-- Witness for C8 (amended): on the counterexample inputs the HIGH clause of
the characterization is exactly the reported level. -/
theorem claim_C8_witness :
    (assessDataQuality [⟨"t1", 1000, 0, [], []⟩]
        [⟨"s1", 1000, 0, "T", 100, 1, Direction.buy, "pump", 1/100⟩,
         ⟨"s2", 2000, 0, "T", 200, 2, Direction.sell, "pump", 1/100⟩]
        [⟨"T", 1, 3/2, 1/2, 50, 1000, 1000, 2000, 100⟩] []).confidenceLevel =
      ConfidenceLevel.HIGH ↔
    ¬ ((∃ i ∈ (assessDataQuality [⟨"t1", 1000, 0, [], []⟩]
          [⟨"s1", 1000, 0, "T", 100, 1, Direction.buy, "pump", 1/100⟩,
           ⟨"s2", 2000, 0, "T", 200, 2, Direction.sell, "pump", 1/100⟩]
          [⟨"T", 1, 3/2, 1/2, 50, 1000, 1000, 2000, 100⟩] []).issues,
        i.severity = Severity.ERROR) ∨
      (assessDataQuality [⟨"t1", 1000, 0, [], []⟩]
          [⟨"s1", 1000, 0, "T", 100, 1, Direction.buy, "pump", 1/100⟩,
           ⟨"s2", 2000, 0, "T", 200, 2, Direction.sell, "pump", 1/100⟩]
          [⟨"T", 1, 3/2, 1/2, 50, 1000, 1000, 2000, 100⟩] []).overallScore < 60) ∧
    ¬ (3 < ((assessDataQuality [⟨"t1", 1000, 0, [], []⟩]
          [⟨"s1", 1000, 0, "T", 100, 1, Direction.buy, "pump", 1/100⟩,
           ⟨"s2", 2000, 0, "T", 200, 2, Direction.sell, "pump", 1/100⟩]
          [⟨"T", 1, 3/2, 1/2, 50, 1000, 1000, 2000, 100⟩] []).issues.filter
        (fun i => decide (i.severity = Severity.WARNING))).length ∨
      (assessDataQuality [⟨"t1", 1000, 0, [], []⟩]
          [⟨"s1", 1000, 0, "T", 100, 1, Direction.buy, "pump", 1/100⟩,
           ⟨"s2", 2000, 0, "T", 200, 2, Direction.sell, "pump", 1/100⟩]
          [⟨"T", 1, 3/2, 1/2, 50, 1000, 1000, 2000, 100⟩] []).overallScore < 80) :=
  (claim_C8_confidence [⟨"t1", 1000, 0, [], []⟩]
    [⟨"s1", 1000, 0, "T", 100, 1, Direction.buy, "pump", 1/100⟩,
     ⟨"s2", 2000, 0, "T", 200, 2, Direction.sell, "pump", 1/100⟩]
    [⟨"T", 1, 3/2, 1/2, 50, 1000, 1000, 2000, 100⟩] []).2.2

end WalletAnalyzer
